import Mathlib

/-!
Verification development for the execution-and-caching core of the
RnAgent repository (`Rna/optimized_core/cache_manager.py` and
`Rna/optimized_core/execution_manager.py`).

The Python code is shallowly embedded: Python `dict`s become association
lists in insertion order (mirroring dict iteration order), wall-clock
times become `Nat` timestamps supplied explicitly, and byte sizes are
`Nat` produced by an arbitrary estimator function `sz` (the source's
`_calculate_size` never raises and returns some positive estimate, so
theorems quantify over the estimator).  Values flowing through the
caches and the execution namespace are modelled by the inductive
`PyVal`; the Python singleton `None` is the constructor `PyVal.none`.
-/

set_option maxHeartbeats 1000000

namespace RnAgent

/-- A Python value as it matters to the cache and execution core:
`none` is the `None` singleton, `list`/`tuple` are the two sequence
forms (they serialize identically under `json.dumps`), and `obj s` is
any non-JSON-serializable object whose `str()` is `s` (relevant because
`_generate_key` serializes such objects with `default=str`). -/
inductive PyVal : Type where
  | none : PyVal
  | bool : Bool → PyVal
  | int : Int → PyVal
  | str : String → PyVal
  | list : List PyVal → PyVal
  | tuple : List PyVal → PyVal
  | obj : String → PyVal

/-- The Python test `value is None` (identity with the `None` singleton),
used by the memoize wrapper and the cache tiers to signal a miss. -/
def PyVal.isNone : PyVal → Bool
  | .none => true
  | _ => false

mutual

/-- `json.dumps(v, sort_keys=True, default=str)` restricted to the value
forms of `PyVal`.  Tuples serialize as JSON arrays exactly like lists,
and a non-serializable object is serialized via `default=str` as the
JSON string of its `str()` — both are sources of key collisions. -/
def dumps : PyVal → String
  | .none => "null"
  | .bool b => if b then "true" else "false"
  | .int i => toString i
  | .str s => "\"" ++ s ++ "\""
  | .list xs => "[" ++ dumpsSeq xs ++ "]"
  | .tuple xs => "[" ++ dumpsSeq xs ++ "]"
  | .obj s => "\"" ++ s ++ "\""

/-- Comma-separated serialization of a sequence of values
(`json.dumps` uses the default separator `", "`). -/
def dumpsSeq : List PyVal → String
  | [] => ""
  | [x] => dumps x
  | x :: y :: rest => dumps x ++ ", " ++ dumpsSeq (y :: rest)

end

section StableSort

variable {α : Type} {κ : Type} [LinearOrder κ]

/-- One step of a stable insertion sort keyed by `k`: walk past strictly
smaller keys and insert before the first element whose key is `≥ k x`,
so that elements with equal keys keep their original relative order.
This models Python's stable `sorted(..., key=...)`: any stable
ascending sort produces the same output list. -/
def insStable (k : α → κ) (x : α) : List α → List α
  | [] => [x]
  | y :: ys => if k y < k x then y :: insStable k x ys else x :: y :: ys

/-- Stable ascending sort by the key function `k`, the model of
Python's `sorted(items, key=k)`. -/
def stableSortBy (k : α → κ) : List α → List α
  | [] => []
  | x :: xs => insStable k x (stableSortBy k xs)

end StableSort

/-- `kwargs` dict items sorted by key, as `json.dumps(..., sort_keys=True)`
emits them.  A Python `dict` has pairwise-distinct keys. -/
def sortKwargs (kw : List (String × PyVal)) : List (String × PyVal) :=
  stableSortBy Prod.fst kw

/-- Serialization of the kwargs dict with sorted keys. -/
def dumpsKwargs (kw : List (String × PyVal)) : String :=
  "\x7b" ++ String.intercalate ", "
    ((sortKwargs kw).map (fun p => "\"" ++ p.1 ++ "\": " ++ dumps p.2)) ++ "\x7d"

/-- `InMemoryCache._generate_key`: the canonical string
`json.dumps({'func': func_name, 'args': args, 'kwargs': kwargs}, sort_keys=True, default=str)`
(top-level keys emitted in sorted order `args`, `func`, `kwargs`).
The source then applies the fixed digest `hashlib.md5(...).hexdigest()`
to this string; since MD5 is a pure function of its input, two calls
get equal digests exactly when their canonical strings are equal (up to
MD5 collisions, which the specification deems negligible), so key
properties are stated on the canonical string. -/
def generate_key (func_name : String) (args : List PyVal)
    (kwargs : List (String × PyVal)) : String :=
  "\x7b\"args\": " ++ dumps (PyVal.tuple args) ++ ", \"func\": \"" ++ func_name ++
    "\", \"kwargs\": " ++ dumpsKwargs kwargs ++ "\x7d"

section AssocModel

variable {β : Type}

/-- Association-list lookup: the value bound to `key`, modelling
`dict[key]` / `key in dict`.  A `dict` has unique keys, so first-match
lookup agrees with the dict. -/
def alookup (key : String) : List (String × β) → Option β
  | [] => Option.none
  | (k, v) :: rest => if k = key then some v else alookup key rest

/-- `del dict[key]` (and `Path.unlink` of the file named by `key`):
the binding for `key` is removed; other bindings keep their order. -/
def removeKey (key : String) (l : List (String × β)) : List (String × β) :=
  l.filter (fun p => decide (p.1 ≠ key))

/-- `dict[key] = v`: replace in place if `key` is present (a Python dict
assignment to an existing key keeps its insertion position), otherwise
append at the end (a new key goes last in iteration order). -/
def dictSet (key : String) (v : β) (l : List (String × β)) : List (String × β) :=
  if l.any (fun p => p.1 == key) then
    l.map (fun p => if p.1 = key then (key, v) else p)
  else
    l ++ [(key, v)]

end AssocModel

/-- `CacheEntry` from `cache_manager.py`: a cached value with creation
and last-access timestamps, an access counter, a TTL in time units and
a size estimate in bytes. -/
structure CacheEntry : Type where
  value : PyVal
  created_time : Nat
  access_time : Nat
  access_count : Nat
  ttl : Nat
  size : Nat

/-- `CacheEntry.is_expired`: `time.time() - self.created_time > self.ttl`
(with `Nat` truncated subtraction, which agrees with the float
subtraction whenever `now ≥ created_time`, i.e. for monotone clocks). -/
def CacheEntry.is_expired (e : CacheEntry) (now : Nat) : Bool :=
  decide (now - e.created_time > e.ttl)

/-- `CacheEntry.touch`: refresh the last-access time and bump the
access counter. -/
def CacheEntry.touch (e : CacheEntry) (now : Nat) : CacheEntry :=
  { e with access_time := now, access_count := e.access_count + 1 }

/-- The `CacheEntry.__init__` constructor: created and access time are
both `now`, the access count starts at 1 and the size comes from the
estimator `sz` (the source's `_calculate_size`). -/
def mkEntry (sz : PyVal → Nat) (v : PyVal) (ttl : Nat) (now : Nat) : CacheEntry :=
  { value := v, created_time := now, access_time := now, access_count := 1,
    ttl := ttl, size := sz v }

/-- `InMemoryCache`: the key→entry store in insertion order plus the
byte-size bookkeeping.  `current_size` is an `Int` exactly mirroring the
unbounded Python integer arithmetic of the source. -/
structure InMemoryCache : Type where
  cache : List (String × CacheEntry)
  max_size : Nat
  current_size : Int

/-- Sum of the size fields of the stored entries, the quantity the
`current_size` bookkeeping is supposed to track. -/
def storeSizes (l : List (String × CacheEntry)) : Int :=
  (l.map (fun p => (p.2.size : Int))).sum

/-- `InMemoryCache.get`: on a present expired entry, delete it and
subtract its size, returning `None`; on a present live entry, `touch`
it in place and return its value; on a missing key return `None`.
Note the returned value is the stored value itself, so a stored `None`
is indistinguishable from a miss for the caller. -/
def InMemoryCache.get (c : InMemoryCache) (key : String) (now : Nat) :
    PyVal × InMemoryCache :=
  match alookup key c.cache with
  | some e =>
    if e.is_expired now then
      (PyVal.none, { c with cache := removeKey key c.cache,
                            current_size := c.current_size - e.size })
    else
      (e.value, { c with cache := dictSet key (e.touch now) c.cache })
  | Option.none => (PyVal.none, c)

/-- The body of `_evict_entries`'s loop over the snapshot list
`sorted_items`: stop as soon as `freed ≥ required`, otherwise delete
the entry from the store, add its size to `freed` and subtract it from
`current_size`. -/
def evictGo (required : Nat) : List (String × CacheEntry) → Nat → InMemoryCache → InMemoryCache
  | [], _, c => c
  | (k, e) :: rest, freed, c =>
    if freed ≥ required then c
    else evictGo required rest (freed + e.size)
      { c with cache := removeKey k c.cache, current_size := c.current_size - e.size }

/-- `sorted(self._cache.items(), key=lambda x: x[1].access_time)`:
Python's `sorted` is stable, so this is the stable ascending sort by
`access_time` over the dict's insertion order. -/
def sortByAccess (l : List (String × CacheEntry)) : List (String × CacheEntry) :=
  stableSortBy (fun p => p.2.access_time) l

/-- `InMemoryCache._evict_entries(required_size)`. -/
def InMemoryCache.evict_entries (c : InMemoryCache) (required : Nat) : InMemoryCache :=
  evictGo required (sortByAccess c.cache) 0 c

/-- `InMemoryCache._should_evict(new_size)`. -/
def InMemoryCache.should_evict (c : InMemoryCache) (new_size : Nat) : Bool :=
  decide (c.current_size + (new_size : Int) > (c.max_size : Int))

/-- `InMemoryCache.set`: build the new entry, evict if inserting it
would exceed `max_size`, subtract the old size when overwriting an
existing key, then store the entry and add its size. -/
def InMemoryCache.set (sz : PyVal → Nat) (c : InMemoryCache) (key : String)
    (v : PyVal) (ttl : Nat) (now : Nat) : InMemoryCache :=
  let entry := mkEntry sz v ttl now
  let c1 := if c.should_evict entry.size then c.evict_entries entry.size else c
  let oldSize : Int :=
    match alookup key c1.cache with
    | some old => (old.size : Int)
    | Option.none => 0
  { c1 with cache := dictSet key entry c1.cache,
            current_size := c1.current_size - oldSize + entry.size }

/-- `InMemoryCache.clear`. -/
def InMemoryCache.clear (c : InMemoryCache) : InMemoryCache :=
  { c with cache := [], current_size := 0 }

/-- The metadata record `DiskCache.set` writes to the `.meta` file. -/
structure DiskMeta : Type where
  created_time : Nat
  access_time : Nat
  access_count : Nat
  expires_at : Nat
  ttl : Nat
deriving DecidableEq

/-- A persisted `.meta` file: either a readable JSON record or a
corrupted/unreadable one (on which `json.load` raises). -/
inductive MetaFile : Type where
  | good : DiskMeta → MetaFile
  | corrupt : MetaFile

/-- `DiskCache`: the cache directory as two keyed file families,
`<key>.cache` payload files and `<key>.meta` metadata files. -/
structure DiskCache : Type where
  cacheFiles : List (String × PyVal)
  metaFiles : List (String × MetaFile)

/-- `DiskCache._remove_cache_files`: unlink both files of `key` when
present. -/
def DiskCache.remove_cache_files (d : DiskCache) (key : String) : DiskCache :=
  { cacheFiles := removeKey key d.cacheFiles,
    metaFiles := removeKey key d.metaFiles }

/-- `DiskCache.get`: miss unless both files exist; a corrupt metadata
file makes `json.load` raise, which the handler turns into removal of
both files and a miss; an expired record is removed and misses;
otherwise the payload is returned after the access metadata is updated
and written back.  A stored payload `None` is returned as `None`,
indistinguishable from a miss. -/
def DiskCache.get (d : DiskCache) (key : String) (now : Nat) : PyVal × DiskCache :=
  match alookup key d.cacheFiles, alookup key d.metaFiles with
  | some v, some mf =>
    match mf with
    | .corrupt => (PyVal.none, d.remove_cache_files key)
    | .good m =>
      if now > m.expires_at then (PyVal.none, d.remove_cache_files key)
      else
        let m' := MetaFile.good { m with access_time := now, access_count := m.access_count + 1 }
        (v, { d with metaFiles := dictSet key m' d.metaFiles })
  | _, _ => (PyVal.none, d)

/-- `DiskCache.set`: write the payload and a fresh metadata record with
`expires_at = now + ttl`. -/
def DiskCache.set (d : DiskCache) (key : String) (v : PyVal) (ttl : Nat) (now : Nat) :
    DiskCache :=
  { cacheFiles := dictSet key v d.cacheFiles,
    metaFiles := dictSet key
      (MetaFile.good { created_time := now, access_time := now, access_count := 1,
                       expires_at := now + ttl, ttl := ttl }) d.metaFiles }

/-- The loop of `DiskCache.cleanup_expired` over the snapshot listing
of `*.meta` files: an expired readable record is removed together with
its payload via `_remove_cache_files`; reading a corrupt record raises,
and the handler unlinks just the `.meta` file and continues with the
remaining records. -/
def cleanupGo (now : Nat) : List (String × MetaFile) → DiskCache → DiskCache
  | [], d => d
  | (key, mf) :: rest, d =>
    match mf with
    | .good m =>
      if now > m.expires_at then cleanupGo now rest (d.remove_cache_files key)
      else cleanupGo now rest d
    | .corrupt => cleanupGo now rest { d with metaFiles := removeKey key d.metaFiles }

/-- `DiskCache.cleanup_expired`. -/
def DiskCache.cleanup_expired (d : DiskCache) (now : Nat) : DiskCache :=
  cleanupGo now d.metaFiles d

/-- The configuration flag `config.cache.enable_data_cache` consulted by
the memoize wrapper before touching the disk tier. -/
structure CacheConfig : Type where
  enable_data_cache : Bool

/-- The mutable state of `CacheManager`: the two cache tiers. -/
structure CacheManagerState : Type where
  memory_cache : InMemoryCache
  disk_cache : DiskCache

/-- One memoized operation: the wrapped function's `__name__`, the
call's arguments, and the (deterministic) value the wrapped computation
returns when actually invoked. -/
structure MemoCall : Type where
  func_name : String
  args : List PyVal
  kwargs : List (String × PyVal)
  result : PyVal

/-- The wrapper produced by `CacheManager.cache_result(ttl, use_disk)`,
evaluated at one call at time `now`.  Returns the produced value, a
flag recording whether the wrapped computation was invoked, and the
resulting cache state.  Mirrors the source line by line: memory get
first (`is not None` test), then — only when `use_disk` and
`enable_data_cache` — disk get with promotion into the memory tier
using the full `ttl`, and on a full miss the computation runs and is
stored into memory always and into disk only on the same flag pair. -/
def cache_result (sz : PyVal → Nat) (cfg : CacheConfig) (ttl : Nat) (use_disk : Bool)
    (call : MemoCall) (s : CacheManagerState) (now : Nat) :
    PyVal × Bool × CacheManagerState :=
  let key := generate_key call.func_name call.args call.kwargs
  let p1 := s.memory_cache.get key now
  if ¬ p1.1.isNone then
    (p1.1, false, { s with memory_cache := p1.2 })
  else if use_disk && cfg.enable_data_cache then
    let p2 := s.disk_cache.get key now
    if ¬ p2.1.isNone then
      (p2.1, false, { memory_cache := InMemoryCache.set sz p1.2 key p2.1 ttl now,
                      disk_cache := p2.2 })
    else
      (call.result, true,
        { memory_cache := InMemoryCache.set sz p1.2 key call.result ttl now,
          disk_cache := DiskCache.set p2.2 key call.result ttl now })
  else
    (call.result, true,
      { memory_cache := InMemoryCache.set sz p1.2 key call.result ttl now,
        disk_cache := s.disk_cache })

/-- A sequence of calls to the same memoized operation at the given
times: the list of (returned value, invoked?) observations plus the
final cache state. -/
def callSeq (sz : PyVal → Nat) (cfg : CacheConfig) (ttl : Nat) (use_disk : Bool)
    (call : MemoCall) : List Nat → CacheManagerState →
    List (PyVal × Bool) × CacheManagerState
  | [], s => ([], s)
  | t :: ts, s =>
    let r := cache_result sz cfg ttl use_disk call s t
    let rest := callSeq sz cfg ttl use_disk call ts r.2.2
    ((r.1, r.2.1) :: rest.1, rest.2)

mutual

/-- `str(v)` as `print` renders it: ints and bools in Python notation,
strings unquoted, `None` as `"None"`, containers in repr form (strings
inside containers are single-quoted), and a non-serializable object as
its carried `str()`. -/
def pyStr : PyVal → String
  | .none => "None"
  | .bool b => if b then "True" else "False"
  | .int i => toString i
  | .str s => s
  | .list xs => "[" ++ pyReprSeq xs ++ "]"
  | .tuple [x] => "(" ++ pyRepr x ++ ",)"
  | .tuple xs => "(" ++ pyReprSeq xs ++ ")"
  | .obj s => s

/-- `repr(v)`, used for elements inside containers. -/
def pyRepr : PyVal → String
  | .none => "None"
  | .bool b => if b then "True" else "False"
  | .int i => toString i
  | .str s => "\x27" ++ s ++ "\x27"
  | .list xs => "[" ++ pyReprSeq xs ++ "]"
  | .tuple [x] => "(" ++ pyRepr x ++ ",)"
  | .tuple xs => "(" ++ pyReprSeq xs ++ ")"
  | .obj s => s

/-- Comma-separated reprs of a sequence. -/
def pyReprSeq : List PyVal → String
  | [] => ""
  | [x] => pyRepr x
  | x :: y :: rest => pyRepr x ++ ", " ++ pyReprSeq (y :: rest)

end

/-- One statement of a submitted code block, covering the effects the
execution manager observes: binding a name in the session namespace,
printing a variable to stdout, raising an exception, and creating a
matplotlib figure (registering it in the global figure registry). -/
inductive Stmt : Type where
  | assign : String → PyVal → Stmt
  | printVar : String → Stmt
  | raiseExc : String → Stmt
  | mkFigure : Stmt

/-- The effect of `exec(code, globals_dict)`: statements run in order
against the namespace, stdout accumulates, created figures accumulate
in the figure registry, and the first exception stops execution while
keeping all effects produced before it (Python `exec` has no rollback).
Returns (namespace, stdout, pending figure count, error message?). -/
def runStmts : List Stmt → List (String × PyVal) → String → Nat →
    List (String × PyVal) × String × Nat × Option String
  | [], ns, out, figs => (ns, out, figs, Option.none)
  | s :: rest, ns, out, figs =>
    match s with
    | .assign n v => runStmts rest (dictSet n v ns) out figs
    | .printVar n =>
      match alookup n ns with
      | some v => runStmts rest ns (out ++ pyStr v ++ "\n") figs
      | Option.none => (ns, out, figs, some ("name \x27" ++ n ++ "\x27 is not defined"))
    | .raiseExc m => (ns, out, figs, some m)
    | .mkFigure => runStmts rest ns out (figs + 1)

/-- The aggregate counters in `ExecutionManager.stats`. -/
structure ExecStats : Type where
  total_executions : Nat
  total_execution_time : Nat

/-- `ExecutionManager`: the persistent session namespace
`globals_dict`, the matplotlib global figure registry (as a count of
pending figures), and the aggregate stats. -/
structure ExecutionManager : Type where
  globals_dict : List (String × PyVal)
  figures : Nat
  stats : ExecStats

/-- The result dict built by `_execute_with_capture`. -/
structure ExecResult : Type where
  success : Bool
  stdout : String
  stderr : String
  error : Option String
  plots : List String
  execution_time : Nat

/-- `traceback.format_exc()` for an exception with message `msg`
(the precise frame text is irrelevant to the claims; only its presence
in stderr is). -/
def tracebackText (msg : String) : String :=
  "Traceback (most recent call last):\n  ...\nException: " ++ msg ++ "\n"

/-- `ExecutionManager._save_plots`: if any figures are pending, write
each to `tmp/plots/plot_<timestamp>_<i>.png` (the timestamp is taken
per figure, modelled by the supplied `ts` function) and then
`plt.close('all')`, leaving the registry empty; with no pending figures
nothing is written. -/
def save_plots (figs : Nat) (ts : Nat → String) : List String × Nat :=
  if figs = 0 then ([], 0)
  else ((List.range figs).map
    (fun i => "tmp/plots/plot_" ++ ts i ++ "_" ++ toString i ++ ".png"), 0)

/-- `ExecutionManager.execute_code` / `_execute_with_capture` at one
submission: run the code against the persistent namespace with output
capture; on success harvest the pending figures into plot files and
clear the registry; on an exception record the message in `error`,
append `"\nError: <msg>\n"` plus the traceback to the captured stderr,
and skip the plot harvest (the `_save_plots` call sits inside the
`try`, after `exec`).  Either way the namespace keeps whatever the code
produced before stopping and the aggregate stats are updated.  The
elapsed wall-clock time is the parameter `elapsed`. -/
def execute_code (em : ExecutionManager) (code : List Stmt) (ts : Nat → String)
    (elapsed : Nat) : ExecResult × ExecutionManager :=
  let r := runStmts code em.globals_dict "" em.figures
  let bumped : ExecStats :=
    { total_executions := em.stats.total_executions + 1,
      total_execution_time := em.stats.total_execution_time + elapsed }
  match r.2.2.2 with
  | Option.none =>
    let saved := save_plots r.2.2.1 ts
    ({ success := true, stdout := r.2.1, stderr := "", error := Option.none,
       plots := saved.1, execution_time := elapsed },
     { globals_dict := r.1, figures := saved.2, stats := bumped })
  | some msg =>
    ({ success := false, stdout := r.2.1,
       stderr := "\nError: " ++ msg ++ "\n" ++ tracebackText msg,
       error := some msg, plots := [], execution_time := elapsed },
     { globals_dict := r.1, figures := r.2.2.1, stats := bumped })

/-! Verification-helper definitions (predicates and characterizations
used by the theorems; they compute, so witnesses can evaluate them). -/

/-- A Python `dict` cannot bind one key twice; association lists that
model dicts satisfy this. -/
def NodupKeys {β : Type} (l : List (String × β)) : Prop :=
  (l.map Prod.fst).Nodup

/-- `x` occurs strictly before `y` in `l`. -/
def Before {α : Type} (x y : α) (l : List α) : Prop :=
  ∃ A B, l = A ++ x :: B ∧ y ∈ B

/-- The prefix of the sorted snapshot that `_evict_entries` actually
deletes: items are taken until the accumulated freed size reaches
`required`. -/
def evictTake (required : Nat) : List (String × CacheEntry) → Nat → List (String × CacheEntry)
  | [], _ => []
  | (k, e) :: rest, freed =>
    if freed ≥ required then []
    else (k, e) :: evictTake required rest (freed + e.size)

/-- Keys whose `.meta` file `cleanup_expired` removes: expired readable
records and corrupt records. -/
def metaRemovedKeys (now : Nat) (ms : List (String × MetaFile)) : List String :=
  ms.filterMap (fun p =>
    match p.2 with
    | .good m => if now > m.expires_at then some p.1 else Option.none
    | .corrupt => some p.1)

/-- Keys whose `.cache` payload file `cleanup_expired` removes: only
the expired readable records (a corrupt record's payload is left in
place, since the handler unlinks just `meta_path`). -/
def payloadRemovedKeys (now : Nat) (ms : List (String × MetaFile)) : List String :=
  ms.filterMap (fun p =>
    match p.2 with
    | .good m => if now > m.expires_at then some p.1 else Option.none
    | .corrupt => Option.none)

/-- The state invariant of reachable `InMemoryCache` states: the dict
has unique keys, the `current_size` bookkeeping matches the stored
entries, and the store never exceeds `max_size` except when it consists
of a single (oversized) entry that was admitted after evicting
everything else. -/
def MemWf (c : InMemoryCache) : Prop :=
  NodupKeys c.cache ∧ c.current_size = storeSizes c.cache ∧
    (c.current_size ≤ (c.max_size : Int) ∨ ∃ k e, c.cache = [(k, e)])

/-! ### Lemmas about the stable sort -/

section StableSortLemmas

variable {α : Type} {κ : Type} [LinearOrder κ] (k : α → κ)

theorem insStable_perm (x : α) (l : List α) : (insStable k x l).Perm (x :: l) := by
  induction l with
  | nil => exact List.Perm.refl _
  | cons y ys ih =>
    simp only [insStable]
    by_cases h : k y < k x
    · rw [if_pos h]
      exact (ih.cons y).trans (List.Perm.swap x y ys)
    · rw [if_neg h]

theorem stableSortBy_perm (l : List α) : (stableSortBy k l).Perm l := by
  induction l with
  | nil => exact List.Perm.refl _
  | cons x xs ih =>
    simp only [stableSortBy]
    exact (insStable_perm k x _).trans (ih.cons x)

theorem insStable_decomp (x : α) (l : List α) :
    ∃ A B, l = A ++ B ∧ insStable k x l = A ++ x :: B ∧ ∀ y ∈ A, k y < k x := by
  induction l with
  | nil => exact ⟨[], [], rfl, rfl, by simp⟩
  | cons y ys ih =>
    by_cases h : k y < k x
    · obtain ⟨A, B, h1, h2, h3⟩ := ih
      refine ⟨y :: A, B, by simp [h1], ?_, ?_⟩
      · simp only [insStable, if_pos h, h2, List.cons_append]
      · intro z hz
        rcases List.mem_cons.mp hz with hz | hz
        · subst hz; exact h
        · exact h3 z hz
    · exact ⟨[], y :: ys, rfl, by simp only [insStable, if_neg h, List.nil_append], by simp⟩

theorem pairwise_insStable (x : α) {l : List α}
    (h : l.Pairwise (fun a b => k a ≤ k b)) :
    (insStable k x l).Pairwise (fun a b => k a ≤ k b) := by
  induction l with
  | nil => simp [insStable]
  | cons y ys ih =>
    rw [List.pairwise_cons] at h
    obtain ⟨hy, hys⟩ := h
    by_cases hlt : k y < k x
    · simp only [insStable, if_pos hlt]
      rw [List.pairwise_cons]
      refine ⟨?_, ih hys⟩
      intro z hz
      rcases List.mem_cons.mp ((insStable_perm k x ys).mem_iff.mp hz) with hz | hz
      · rw [hz]; exact le_of_lt hlt
      · exact hy z hz
    · simp only [insStable, if_neg hlt]
      rw [List.pairwise_cons]
      refine ⟨?_, List.Pairwise.cons hy hys⟩
      intro z hz
      rcases List.mem_cons.mp hz with hz | hz
      · rw [hz]; exact le_of_not_lt hlt
      · exact le_trans (le_of_not_lt hlt) (hy z hz)

theorem pairwise_stableSortBy (l : List α) :
    (stableSortBy k l).Pairwise (fun a b => k a ≤ k b) := by
  induction l with
  | nil => simp [stableSortBy]
  | cons x xs ih =>
    simp only [stableSortBy]
    exact pairwise_insStable k x ih

theorem filter_insStable (p : α → Bool) (t : κ) (hp : ∀ a, p a = true → k a = t)
    (x : α) (l : List α) :
    (insStable k x l).filter p = if p x then x :: l.filter p else l.filter p := by
  obtain ⟨A, B, h1, h2, h3⟩ := insStable_decomp k x l
  rw [h2, h1, List.filter_append, List.filter_append, List.filter_cons]
  by_cases hx : p x
  · have hA : A.filter p = [] := by
      rw [List.filter_eq_nil_iff]
      intro a ha hpa
      have hat : k a = t := hp a hpa
      have hxt : k x = t := hp x hx
      exact absurd (h3 a ha) (by rw [hat, hxt]; exact lt_irrefl t)
    simp [hx, hA]
  · simp [hx]

theorem filter_stableSortBy (p : α → Bool) (t : κ) (hp : ∀ a, p a = true → k a = t)
    (l : List α) : (stableSortBy k l).filter p = l.filter p := by
  induction l with
  | nil => rfl
  | cons x xs ih =>
    simp only [stableSortBy]
    rw [filter_insStable k p t hp, List.filter_cons, ih]

theorem stableSortBy_eq_of_perm {l1 l2 : List α} (hp : l1.Perm l2)
    (hn : (l1.map k).Nodup) : stableSortBy k l1 = stableSortBy k l2 := by
  have h1 := stableSortBy_perm k l1
  have h2 := stableSortBy_perm k l2
  have hperm : (stableSortBy k l1).Perm (stableSortBy k l2) := h1.trans (hp.trans h2.symm)
  have hn1 : ((stableSortBy k l1).map k).Nodup := ((h1.map k).nodup_iff).mpr hn
  have hn2 : ((stableSortBy k l2).map k).Nodup :=
    ((h2.map k).nodup_iff).mpr ((hp.map k).nodup_iff.mp hn)
  have hs1 : (stableSortBy k l1).Pairwise (fun a b => k a < k b) :=
    ((pairwise_stableSortBy k l1).and (List.pairwise_map.mp hn1)).imp
      (fun h => lt_of_le_of_ne h.1 h.2)
  have hs2 : (stableSortBy k l2).Pairwise (fun a b => k a < k b) :=
    ((pairwise_stableSortBy k l2).and (List.pairwise_map.mp hn2)).imp
      (fun h => lt_of_le_of_ne h.1 h.2)
  haveI : IsAntisymm α (fun a b => k a < k b) :=
    ⟨fun a b ha hb => absurd (ha.trans hb) (lt_irrefl _)⟩
  exact List.eq_of_perm_of_sorted hperm hs1 hs2

end StableSortLemmas

/-! ### Lemmas about the association-list dict model -/

section AssocLemmas

variable {β : Type}

theorem alookup_eq_none {key : String} {l : List (String × β)} :
    alookup key l = Option.none ↔ key ∉ l.map Prod.fst := by
  induction l with
  | nil => simp [alookup]
  | cons p rest ih =>
    obtain ⟨k, v⟩ := p
    by_cases h : k = key
    · subst h; simp [alookup]
    · simp [alookup, h, ih, Ne.symm h]

theorem mem_of_alookup {key : String} {l : List (String × β)} {v : β}
    (h : alookup key l = some v) : (key, v) ∈ l := by
  induction l with
  | nil => simp [alookup] at h
  | cons p rest ih =>
    obtain ⟨k, w⟩ := p
    by_cases hk : k = key
    · subst hk
      have hv : w = v := by simpa [alookup] using h
      subst hv
      exact List.mem_cons_self _ _
    · simp only [alookup, if_neg hk] at h
      exact List.mem_cons_of_mem _ (ih h)

theorem any_key_iff {key : String} {l : List (String × β)} :
    (l.any (fun p => p.1 == key)) = true ↔ key ∈ l.map Prod.fst := by
  simp [List.any_eq_true, List.mem_map, beq_iff_eq]

theorem dictSet_of_mem {key : String} {v : β} {l : List (String × β)}
    (h : key ∈ l.map Prod.fst) :
    dictSet key v l = l.map (fun p => if p.1 = key then (key, v) else p) := by
  rw [dictSet, if_pos (any_key_iff.mpr h)]

theorem dictSet_of_not_mem {key : String} {v : β} {l : List (String × β)}
    (h : key ∉ l.map Prod.fst) : dictSet key v l = l ++ [(key, v)] := by
  rw [dictSet, if_neg]
  intro hc
  exact h (any_key_iff.mp hc)

theorem keys_dictSet_of_mem {key : String} {v : β} {l : List (String × β)}
    (h : key ∈ l.map Prod.fst) :
    (dictSet key v l).map Prod.fst = l.map Prod.fst := by
  rw [dictSet_of_mem h, List.map_map]
  apply List.map_congr_left
  intro p _
  by_cases hp : p.1 = key
  · simp [hp]
  · simp [hp]

theorem alookup_map_update_self {key : String} {v : β} {l : List (String × β)}
    (h : key ∈ l.map Prod.fst) :
    alookup key (l.map (fun p => if p.1 = key then (key, v) else p)) = some v := by
  induction l with
  | nil => simp at h
  | cons p rest ih =>
    obtain ⟨k, w⟩ := p
    simp only [List.map_cons]
    by_cases hk : k = key
    · rw [show (if ((k, w) : String × β).1 = key then (key, v) else (k, w)) = (key, v) from
        by simp [hk]]
      simp [alookup]
    · rw [show (if ((k, w) : String × β).1 = key then (key, v) else (k, w)) = (k, w) from
        by simp [hk]]
      simp only [alookup, if_neg hk]
      apply ih
      simp only [List.map_cons, List.mem_cons] at h
      rcases h with h | h
      · exact absurd h.symm hk
      · exact h

theorem alookup_append_self {key : String} {v : β} {l : List (String × β)}
    (h : key ∉ l.map Prod.fst) : alookup key (l ++ [(key, v)]) = some v := by
  induction l with
  | nil => simp [alookup]
  | cons p rest ih =>
    obtain ⟨k, w⟩ := p
    simp only [List.map_cons, List.mem_cons, not_or] at h
    simp only [List.cons_append, alookup]
    rw [if_neg (fun hc => h.1 hc.symm)]
    exact ih h.2

theorem alookup_dictSet_self {key : String} {v : β} {l : List (String × β)} :
    alookup key (dictSet key v l) = some v := by
  by_cases h : key ∈ l.map Prod.fst
  · rw [dictSet_of_mem h]
    exact alookup_map_update_self h
  · rw [dictSet_of_not_mem h]
    exact alookup_append_self h

theorem alookup_map_update {key k' : String} {v : β} {l : List (String × β)}
    (h : k' ≠ key) :
    alookup k' (l.map (fun p => if p.1 = key then (key, v) else p)) = alookup k' l := by
  induction l with
  | nil => rfl
  | cons p rest ih =>
    obtain ⟨k, w⟩ := p
    simp only [List.map_cons]
    by_cases hk : k = key
    · rw [show (if ((k, w) : String × β).1 = key then (key, v) else (k, w)) = (key, v) from
        by simp [hk]]
      subst hk
      simp only [alookup]
      rw [if_neg (fun hc => h hc.symm), if_neg (fun hc => h hc.symm)]
      exact ih
    · rw [show (if ((k, w) : String × β).1 = key then (key, v) else (k, w)) = (k, w) from
        by simp [hk]]
      by_cases hk' : k = k'
      · simp [alookup, hk']
      · simp only [alookup, if_neg hk']
        exact ih

theorem alookup_append_single {key k' : String} {v : β} {l : List (String × β)}
    (h : k' ≠ key) : alookup k' (l ++ [(key, v)]) = alookup k' l := by
  induction l with
  | nil =>
    simp only [List.nil_append, alookup]
    rw [if_neg (fun hc => h hc.symm)]
  | cons p rest ih =>
    obtain ⟨k, w⟩ := p
    simp only [List.cons_append, alookup]
    by_cases hk : k = k'
    · rw [if_pos hk, if_pos hk]
    · rw [if_neg hk, if_neg hk]
      exact ih

theorem alookup_dictSet_ne {key k' : String} {v : β} {l : List (String × β)}
    (h : k' ≠ key) : alookup k' (dictSet key v l) = alookup k' l := by
  by_cases hm : key ∈ l.map Prod.fst
  · rw [dictSet_of_mem hm]
    exact alookup_map_update h
  · rw [dictSet_of_not_mem hm]
    exact alookup_append_single h

theorem removeKey_cons_self {key : String} {w : β} {rest : List (String × β)} :
    removeKey key ((key, w) :: rest) = removeKey key rest := by
  simp [removeKey, List.filter_cons]

theorem removeKey_cons_ne {key k : String} {w : β} {rest : List (String × β)}
    (h : k ≠ key) : removeKey key ((k, w) :: rest) = (k, w) :: removeKey key rest := by
  simp [removeKey, List.filter_cons, h]

theorem alookup_removeKey_self {key : String} {l : List (String × β)} :
    alookup key (removeKey key l) = Option.none := by
  rw [alookup_eq_none]
  intro hc
  obtain ⟨p, hp, hfst⟩ := List.mem_map.mp hc
  have hmem := List.of_mem_filter hp
  rw [decide_eq_true_eq] at hmem
  exact hmem hfst

theorem alookup_removeKey_ne {key k' : String} {l : List (String × β)}
    (h : k' ≠ key) : alookup k' (removeKey key l) = alookup k' l := by
  induction l with
  | nil => rfl
  | cons p rest ih =>
    obtain ⟨k, w⟩ := p
    by_cases hk : k = key
    · subst hk
      rw [removeKey_cons_self]
      rw [show alookup k' ((k, w) :: rest) = alookup k' rest from
        by simp only [alookup]; rw [if_neg (fun hc => h hc.symm)]]
      exact ih
    · rw [removeKey_cons_ne hk]
      simp only [alookup]
      by_cases hk' : k = k'
      · rw [if_pos hk', if_pos hk']
      · rw [if_neg hk', if_neg hk']
        exact ih

theorem removeKey_of_not_mem {key : String} {l : List (String × β)}
    (h : key ∉ l.map Prod.fst) : removeKey key l = l := by
  rw [removeKey, List.filter_eq_self]
  intro p hp
  rw [decide_eq_true_eq]
  intro hc
  exact h (List.mem_map.mpr ⟨p, hp, hc⟩)

theorem keys_removeKey_sublist (key : String) (l : List (String × β)) :
    ((removeKey key l).map Prod.fst).Sublist (l.map Prod.fst) :=
  (List.filter_sublist l).map Prod.fst

theorem perm_cons_removeKey {key : String} {v : β} {l : List (String × β)}
    (hn : NodupKeys l) (h : alookup key l = some v) :
    l.Perm ((key, v) :: removeKey key l) := by
  induction l with
  | nil => simp [alookup] at h
  | cons p rest ih =>
    obtain ⟨k, w⟩ := p
    rw [NodupKeys, List.map_cons, List.nodup_cons] at hn
    by_cases hk : k = key
    · subst hk
      have hv : w = v := by simpa [alookup] using h
      subst hv
      rw [removeKey_cons_self, removeKey_of_not_mem hn.1]
    · simp only [alookup, if_neg hk] at h
      have hrest := ih hn.2 h
      rw [removeKey_cons_ne hk]
      exact (hrest.cons (k, w)).trans (List.Perm.swap (key, v) (k, w) (removeKey key rest))

theorem nodupKeys_removeKey {key : String} {l : List (String × β)}
    (hn : NodupKeys l) : NodupKeys (removeKey key l) :=
  List.Nodup.sublist (keys_removeKey_sublist key l) hn

theorem nodupKeys_dictSet {key : String} {v : β} {l : List (String × β)}
    (hn : NodupKeys l) : NodupKeys (dictSet key v l) := by
  by_cases h : key ∈ l.map Prod.fst
  · rw [NodupKeys, keys_dictSet_of_mem h]
    exact hn
  · rw [NodupKeys, dictSet_of_not_mem h, List.map_append, List.map_singleton]
    rw [List.nodup_append]
    refine ⟨hn, List.nodup_singleton key, ?_⟩
    intro a ha hb
    rw [List.mem_singleton] at hb
    subst hb
    exact h ha

theorem alookup_eq_some_of_mem {key : String} {v : β} {l : List (String × β)}
    (hn : NodupKeys l) (hm : (key, v) ∈ l) : alookup key l = some v := by
  induction l with
  | nil => simp at hm
  | cons p rest ih =>
    obtain ⟨k, w⟩ := p
    rw [NodupKeys, List.map_cons, List.nodup_cons] at hn
    rcases List.mem_cons.mp hm with heq | hmem
    · rw [show k = key from (congrArg Prod.fst heq).symm,
        show w = v from (congrArg Prod.snd heq).symm] at hn ⊢
      simp [alookup]
    · by_cases hk : k = key
      · subst hk
        exact absurd (List.mem_map.mpr ⟨(k, v), hmem, rfl⟩) hn.1
      · simp only [alookup, if_neg hk]
        exact ih hn.2 hmem

end AssocLemmas

/-! ### Lemmas about size bookkeeping -/

theorem storeSizes_perm {l1 l2 : List (String × CacheEntry)} (h : l1.Perm l2) :
    storeSizes l1 = storeSizes l2 :=
  (h.map _).sum_eq

theorem storeSizes_cons (p : String × CacheEntry) (l : List (String × CacheEntry)) :
    storeSizes (p :: l) = (p.2.size : Int) + storeSizes l := by
  simp [storeSizes]

theorem storeSizes_append (l1 l2 : List (String × CacheEntry)) :
    storeSizes (l1 ++ l2) = storeSizes l1 + storeSizes l2 := by
  simp [storeSizes]

theorem storeSizes_nonneg (l : List (String × CacheEntry)) : 0 ≤ storeSizes l := by
  induction l with
  | nil => simp [storeSizes]
  | cons p rest ih =>
    rw [storeSizes_cons]
    exact add_nonneg (Int.natCast_nonneg _) ih

theorem storeSizes_removeKey {key : String} {e : CacheEntry}
    {l : List (String × CacheEntry)} (hn : NodupKeys l) (h : alookup key l = some e) :
    storeSizes (removeKey key l) = storeSizes l - (e.size : Int) := by
  rw [storeSizes_perm (perm_cons_removeKey hn h), storeSizes_cons]
  ring

theorem removeKey_map_update {key : String} {v : β} {l : List (String × β)} :
    removeKey key (l.map (fun p => if p.1 = key then (key, v) else p)) = removeKey key l := by
  induction l with
  | nil => rfl
  | cons p rest ih =>
    obtain ⟨k, w⟩ := p
    simp only [List.map_cons]
    by_cases hk : k = key
    · rw [show (if ((k, w) : String × β).1 = key then (key, v) else (k, w)) = (key, v) from
        by simp [hk]]
      subst hk
      rw [removeKey_cons_self, removeKey_cons_self]
      exact ih
    · rw [show (if ((k, w) : String × β).1 = key then (key, v) else (k, w)) = (k, w) from
        by simp [hk]]
      rw [removeKey_cons_ne hk, removeKey_cons_ne hk, ih]

theorem removeKey_append_single {key : String} {v : β} {l : List (String × β)} :
    removeKey key (l ++ [(key, v)]) = removeKey key l := by
  rw [removeKey, List.filter_append]
  rw [show List.filter (fun p => decide (p.1 ≠ key)) [(key, v)] = [] from by simp]
  rw [List.append_nil]
  rfl

theorem removeKey_dictSet {key : String} {v : β} {l : List (String × β)} :
    removeKey key (dictSet key v l) = removeKey key l := by
  by_cases h : key ∈ l.map Prod.fst
  · rw [dictSet_of_mem h, removeKey_map_update]
  · rw [dictSet_of_not_mem h, removeKey_append_single]

theorem storeSizes_dictSet_mem {key : String} {e old : CacheEntry}
    {l : List (String × CacheEntry)} (hn : NodupKeys l) (h : alookup key l = some old) :
    storeSizes (dictSet key e l) = storeSizes l - (old.size : Int) + (e.size : Int) := by
  have hperm := perm_cons_removeKey (nodupKeys_dictSet hn)
    (@alookup_dictSet_self CacheEntry key e l)
  rw [storeSizes_perm hperm, storeSizes_cons, removeKey_dictSet,
    storeSizes_removeKey hn h]
  ring

theorem storeSizes_dictSet_not_mem {key : String} {e : CacheEntry}
    {l : List (String × CacheEntry)} (h : key ∉ l.map Prod.fst) :
    storeSizes (dictSet key e l) = storeSizes l + (e.size : Int) := by
  rw [dictSet_of_not_mem h, storeSizes_append, storeSizes_cons]
  simp [storeSizes]

/-! ### Characterization of the eviction loop -/

theorem evictGo_spec (required : Nat) (items : List (String × CacheEntry)) :
    ∀ (freed : Nat) (c : InMemoryCache),
    evictGo required items freed c =
      { cache := c.cache.filter
          (fun p => decide (p.1 ∉ (evictTake required items freed).map Prod.fst)),
        max_size := c.max_size,
        current_size := c.current_size - storeSizes (evictTake required items freed) } := by
  induction items with
  | nil =>
    intro freed c
    cases c
    simp [evictGo, evictTake, storeSizes]
  | cons it rest ih =>
    intro freed c
    obtain ⟨k, e⟩ := it
    by_cases h : freed ≥ required
    · cases c
      simp [evictGo, evictTake, h, storeSizes]
    · simp only [evictGo, evictTake, if_neg h]
      rw [ih]
      congr 1
      · rw [removeKey, List.filter_filter]
        apply List.filter_congr
        intro p _
        by_cases h1 : p.1 = k <;> by_cases h2 : p.1 ∈ (evictTake required rest (freed + e.size)).map Prod.fst <;>
          simp [h1, h2, List.mem_cons]
      · rw [storeSizes_cons]
        ring

theorem evictTake_decomp (required : Nat) (items : List (String × CacheEntry)) :
    ∀ freed, ∃ suffix, items = evictTake required items freed ++ suffix := by
  induction items with
  | nil => intro freed; exact ⟨[], rfl⟩
  | cons it rest ih =>
    intro freed
    obtain ⟨k, e⟩ := it
    by_cases h : freed ≥ required
    · exact ⟨(k, e) :: rest, by simp [evictTake, h]⟩
    · obtain ⟨suf, hsuf⟩ := ih (freed + e.size)
      refine ⟨suf, ?_⟩
      simp only [evictTake, if_neg h, List.cons_append]
      exact congrArg _ hsuf

theorem evictTake_enough (required : Nat) (items : List (String × CacheEntry)) :
    ∀ freed : Nat,
    (required : Int) ≤ storeSizes (evictTake required items freed) + (freed : Int) ∨
      evictTake required items freed = items := by
  induction items with
  | nil => intro freed; exact Or.inr rfl
  | cons it rest ih =>
    intro freed
    obtain ⟨k, e⟩ := it
    by_cases h : freed ≥ required
    · left
      simp only [evictTake, if_pos h, storeSizes, List.map_nil, List.sum_nil, zero_add]
      exact_mod_cast h
    · rcases ih (freed + e.size) with hle | heq
      · left
        simp only [evictTake, if_neg h]
        rw [storeSizes_cons]
        push_cast at hle ⊢
        linarith
      · right
        simp only [evictTake, if_neg h, heq]

/-! ### The `Before` (occurs-earlier) relation -/

theorem before_filter {α : Type} {x y : α} {l : List α} {p : α → Bool}
    (h : Before x y l) (hx : p x = true) (hy : p y = true) :
    Before x y (l.filter p) := by
  obtain ⟨A, B, rfl, hyB⟩ := h
  refine ⟨A.filter p, B.filter p, ?_, List.mem_filter.mpr ⟨hyB, hy⟩⟩
  rw [List.filter_append, List.filter_cons, if_pos hx]

theorem sublist_pair_of_before {α : Type} {x y : α} {l : List α}
    (h : Before x y l) : List.Sublist [x, y] l := by
  obtain ⟨A, B, rfl, hy⟩ := h
  obtain ⟨B1, B2, rfl⟩ := List.append_of_mem hy
  have h2 : List.Sublist [y] (y :: B2) := (List.nil_sublist B2).cons₂ y
  have h3 : List.Sublist [y] (B1 ++ y :: B2) := List.sublist_append_of_sublist_right h2
  have h4 : List.Sublist [x, y] (x :: (B1 ++ y :: B2)) := h3.cons₂ x
  exact List.sublist_append_of_sublist_right h4

theorem pair_sublist_asymm {α : Type} {x y : α} :
    ∀ {l : List α}, l.Nodup → List.Sublist [x, y] l → List.Sublist [y, x] l → False := by
  intro l
  induction l with
  | nil => intro _ h _; cases h
  | cons a t ih =>
    intro hn h1 h2
    rw [List.nodup_cons] at hn
    cases h1 with
    | cons _ h1' =>
      cases h2 with
      | cons _ h2' => exact ih hn.2 h1' h2'
      | cons₂ _ h2' =>
        exact hn.1 (h1'.subset (by simp))
    | cons₂ _ h1' =>
      cases h2 with
      | cons _ h2' =>
        exact hn.1 (h2'.subset (by simp))
      | cons₂ _ h2' =>
        exact hn.1 (h1'.subset (by simp))

theorem before_asymm {α : Type} {x y : α} {l : List α} (hn : l.Nodup)
    (h1 : Before x y l) (h2 : Before y x l) : False :=
  pair_sublist_asymm hn (sublist_pair_of_before h1) (sublist_pair_of_before h2)

theorem before_of_append {α : Type} {x y : α} {P S : List α}
    (hx : x ∈ P) (hy : y ∈ S) : Before x y (P ++ S) := by
  obtain ⟨A, B, rfl⟩ := List.append_of_mem hx
  exact ⟨A, B ++ S, by simp, by simp [hy]⟩

/-! ### Packaged description of `_evict_entries` -/

theorem nodupKeys_perm {l l' : List (String × β)} (hn : NodupKeys l)
    (h : l.Perm l') : NodupKeys l' :=
  ((h.map Prod.fst).nodup_iff).mp hn

theorem nodupKeys_entry_eq {key : String} {a b : β} {l : List (String × β)}
    (hn : NodupKeys l) (ha : (key, a) ∈ l) (hb : (key, b) ∈ l) : a = b := by
  have h1 := alookup_eq_some_of_mem hn ha
  have h2 := alookup_eq_some_of_mem hn hb
  rw [h1] at h2
  exact Option.some.inj h2

theorem evict_split (c : InMemoryCache) (required : Nat) (hn : NodupKeys c.cache) :
    ∃ take suffix : List (String × CacheEntry),
      take = evictTake required (sortByAccess c.cache) 0 ∧
      sortByAccess c.cache = take ++ suffix ∧
      (c.evict_entries required).cache =
        c.cache.filter (fun p => decide (p.1 ∉ take.map Prod.fst)) ∧
      (c.evict_entries required).cache.Perm suffix ∧
      (c.evict_entries required).current_size = c.current_size - storeSizes take ∧
      (c.evict_entries required).max_size = c.max_size ∧
      ((required : Int) ≤ storeSizes take ∨ take = sortByAccess c.cache) := by
  obtain ⟨suffix, hsuf⟩ := evictTake_decomp required (sortByAccess c.cache) 0
  have henough := evictTake_enough required (sortByAccess c.cache) 0
  have hspec := evictGo_spec required (sortByAccess c.cache) 0 c
  set T := evictTake required (sortByAccess c.cache) 0 with hT
  have hcache : (c.evict_entries required).cache =
      c.cache.filter (fun p => decide (p.1 ∉ T.map Prod.fst)) := by
    rw [InMemoryCache.evict_entries, hspec]
  have hcur : (c.evict_entries required).current_size = c.current_size - storeSizes T := by
    rw [InMemoryCache.evict_entries, hspec]
  have hmax : (c.evict_entries required).max_size = c.max_size := by
    rw [InMemoryCache.evict_entries, hspec]
  have hsortperm : (sortByAccess c.cache).Perm c.cache := stableSortBy_perm _ _
  have hnsorted : NodupKeys (sortByAccess c.cache) := nodupKeys_perm hn hsortperm.symm
  have hdisj : (T.map Prod.fst).Disjoint (suffix.map Prod.fst) := by
    have hx := hnsorted
    rw [NodupKeys, hsuf, List.map_append, List.nodup_append] at hx
    exact hx.2.2
  have hTnil : T.filter (fun p => decide (p.1 ∉ T.map Prod.fst)) = [] := by
    rw [List.filter_eq_nil_iff]
    intro a ha
    simp only [decide_eq_true_eq, not_not]
    exact List.mem_map.mpr ⟨a, ha, rfl⟩
  have hSall : suffix.filter (fun p => decide (p.1 ∉ T.map Prod.fst)) = suffix := by
    rw [List.filter_eq_self]
    intro a ha
    simp only [decide_eq_true_eq]
    intro hc
    exact hdisj hc (List.mem_map.mpr ⟨a, ha, rfl⟩)
  have hperm : (c.evict_entries required).cache.Perm suffix := by
    rw [hcache]
    have h1 : (c.cache.filter (fun p => decide (p.1 ∉ T.map Prod.fst))).Perm
        ((sortByAccess c.cache).filter (fun p => decide (p.1 ∉ T.map Prod.fst))) :=
      List.Perm.filter _ hsortperm.symm
    have h2 : (sortByAccess c.cache).filter (fun p => decide (p.1 ∉ T.map Prod.fst)) =
        suffix := by
      rw [hsuf, List.filter_append, hTnil, List.nil_append, hSall]
    rw [h2] at h1
    exact h1
  refine ⟨T, suffix, rfl, hsuf, hcache, hperm, hcur, hmax, ?_⟩
  simpa using henough

theorem nodupKeys_evict {c : InMemoryCache} {required : Nat} (hn : NodupKeys c.cache) :
    NodupKeys ((c.evict_entries required).cache) := by
  rw [InMemoryCache.evict_entries, evictGo_spec]
  exact List.Nodup.sublist ((List.filter_sublist _).map Prod.fst) hn

/-! ### Behaviour and invariants of the memory-cache operations -/

theorem alookup_single {β : Type} {k0 key : String} {e0 : β} :
    alookup key [(k0, e0)] = if k0 = key then some e0 else Option.none := rfl

theorem alookup_single_some {β : Type} {k0 key : String} {e0 e : β}
    (h : alookup key [(k0, e0)] = some e) : k0 = key ∧ e0 = e := by
  rw [alookup_single] at h
  by_cases hk : k0 = key
  · rw [if_pos hk] at h
    exact ⟨hk, Option.some.inj h⟩
  · rw [if_neg hk] at h
    cases h

theorem memGet_of_absent {c : InMemoryCache} {key : String} {now : Nat}
    (h : alookup key c.cache = Option.none) :
    c.get key now = (PyVal.none, c) := by
  simp [InMemoryCache.get, h]

theorem memGet_of_live {c : InMemoryCache} {key : String} {now : Nat} {e : CacheEntry}
    (h : alookup key c.cache = some e) (hex : e.is_expired now = false) :
    c.get key now = (e.value, { c with cache := dictSet key (e.touch now) c.cache }) := by
  simp [InMemoryCache.get, h, hex]

theorem memGet_of_expired {c : InMemoryCache} {key : String} {now : Nat} {e : CacheEntry}
    (h : alookup key c.cache = some e) (hex : e.is_expired now = true) :
    c.get key now = (PyVal.none,
      { c with cache := removeKey key c.cache,
               current_size := c.current_size - (e.size : Int) }) := by
  simp [InMemoryCache.get, h, hex]

theorem memSet_eq (sz : PyVal → Nat) (c : InMemoryCache) (key : String) (v : PyVal)
    (ttl now : Nat) :
    InMemoryCache.set sz c key v ttl now =
      { cache := dictSet key (mkEntry sz v ttl now)
          ((if c.should_evict (sz v) then c.evict_entries (sz v) else c).cache),
        max_size := (if c.should_evict (sz v) then c.evict_entries (sz v) else c).max_size,
        current_size :=
          (if c.should_evict (sz v) then c.evict_entries (sz v) else c).current_size -
            (match alookup key
                ((if c.should_evict (sz v) then c.evict_entries (sz v) else c).cache) with
              | some old => (old.size : Int)
              | Option.none => 0) + ((sz v : Nat) : Int) } := rfl

theorem memSet_lookup_self (sz : PyVal → Nat) (c : InMemoryCache) (key : String)
    (v : PyVal) (ttl now : Nat) :
    alookup key ((InMemoryCache.set sz c key v ttl now).cache) =
      some (mkEntry sz v ttl now) := by
  rw [memSet_eq]
  exact alookup_dictSet_self

theorem memWf_clear {c : InMemoryCache} : MemWf c.clear := by
  refine ⟨by simp [InMemoryCache.clear, NodupKeys],
    by simp [InMemoryCache.clear, storeSizes], ?_⟩
  left
  simp [InMemoryCache.clear]

theorem memWf_evict {c : InMemoryCache} {required : Nat} (h : MemWf c) :
    MemWf (c.evict_entries required) := by
  obtain ⟨hn, hsz, hb⟩ := h
  obtain ⟨T, suffix, hT, hsuf, hcache, hperm, hcur, hmax, _⟩ := evict_split c required hn
  have hsplit : storeSizes c.cache = storeSizes T + storeSizes suffix := by
    have h1 : storeSizes (sortByAccess c.cache) = storeSizes c.cache :=
      storeSizes_perm (stableSortBy_perm _ _)
    rw [← h1, hsuf, storeSizes_append]
  refine ⟨nodupKeys_evict hn, ?_, ?_⟩
  · rw [hcur, storeSizes_perm hperm, hsz, hsplit]
    ring
  · rw [hcur, hmax]
    rcases hb with hle | ⟨k0, e0, hc0⟩
    · left
      have := storeSizes_nonneg T
      linarith
    · by_cases hP : ((k0, e0) : String × CacheEntry).1 ∈ T.map Prod.fst
      · left
        have hfil : (c.evict_entries required).cache = [] := by
          rw [hcache, hc0]
          simp [hP]
        have hzero : storeSizes suffix = 0 := by
          rw [← storeSizes_perm hperm, hfil]
          rfl
        rw [hsz, hc0]
        rw [hc0] at hsplit
        have hTz : storeSizes [(k0, e0)] = storeSizes T + storeSizes suffix := hsplit
        rw [hzero] at hTz
        rw [show storeSizes [(k0, e0)] = (e0.size : Int) from by simp [storeSizes]] at hTz ⊢
        rw [hTz]
        simp
      · right
        refine ⟨k0, e0, ?_⟩
        rw [hcache, hc0]
        simp [hP]

theorem memWf_get {c : InMemoryCache} {key : String} {now : Nat} (h : MemWf c) :
    MemWf (c.get key now).2 := by
  obtain ⟨hn, hsz, hb⟩ := h
  cases halt : alookup key c.cache with
  | none =>
    rw [memGet_of_absent halt]
    exact ⟨hn, hsz, hb⟩
  | some e =>
    cases hex : e.is_expired now with
    | false =>
      rw [memGet_of_live halt hex]
      dsimp only
      refine ⟨nodupKeys_dictSet hn, ?_, ?_⟩
      · rw [storeSizes_dictSet_mem hn halt, ← hsz]
        rw [show (e.touch now).size = e.size from rfl]
        ring
      · rcases hb with hle | ⟨k0, e0, hc0⟩
        · left; exact hle
        · right
          rw [hc0] at halt
          obtain ⟨hk0, he0⟩ := alookup_single_some halt
          refine ⟨key, e.touch now, ?_⟩
          rw [hc0, hk0]
          rw [dictSet_of_mem (by simp)]
          simp
    | true =>
      rw [memGet_of_expired halt hex]
      dsimp only
      refine ⟨nodupKeys_removeKey hn, ?_, ?_⟩
      · rw [storeSizes_removeKey hn halt, hsz]
      · left
        show c.current_size - (e.size : Int) ≤ (c.max_size : Int)
        rcases hb with hle | ⟨k0, e0, hc0⟩
        · have : (0 : Int) ≤ (e.size : Int) := Int.natCast_nonneg _
          linarith
        · rw [hc0] at halt
          obtain ⟨hk0, he0⟩ := alookup_single_some halt
          rw [hsz, hc0, he0]
          rw [show storeSizes [(k0, e)] = (e.size : Int) from by simp [storeSizes]]
          simp

theorem memSet_of_evicted_all {sz : PyVal → Nat} {c : InMemoryCache} {key : String}
    {v : PyVal} {ttl now : Nat} (hev : c.should_evict (sz v) = true)
    (hnil : (c.evict_entries (sz v)).cache = [])
    (hcur0 : (c.evict_entries (sz v)).current_size = 0)
    (hmax : (c.evict_entries (sz v)).max_size = c.max_size) :
    InMemoryCache.set sz c key v ttl now =
      { cache := [(key, mkEntry sz v ttl now)], max_size := c.max_size,
        current_size := ((sz v : Nat) : Int) } := by
  rw [memSet_eq, if_pos hev, hnil, hcur0, hmax]
  rw [show alookup key ([] : List (String × CacheEntry)) = Option.none from rfl]
  rw [show dictSet key (mkEntry sz v ttl now) ([] : List (String × CacheEntry)) =
    [(key, mkEntry sz v ttl now)] from rfl]
  have harith : (0 : Int) -
      (match (Option.none : Option CacheEntry) with
        | some old => (old.size : Int)
        | Option.none => 0) + ((sz v : Nat) : Int) = ((sz v : Nat) : Int) := by
    show (0 : Int) - 0 + ((sz v : Nat) : Int) = ((sz v : Nat) : Int)
    ring
  rw [harith]

theorem memWf_set {sz : PyVal → Nat} {c : InMemoryCache} {key : String} {v : PyVal}
    {ttl now : Nat} (hpos : ∀ u, 0 < sz u) (h : MemWf c) :
    MemWf (InMemoryCache.set sz c key v ttl now) ∧
      ((InMemoryCache.set sz c key v ttl now).current_size ≤ (c.max_size : Int) ∨
        ((InMemoryCache.set sz c key v ttl now).cache = [(key, mkEntry sz v ttl now)] ∧
          (c.max_size : Int) < ((sz v : Nat) : Int))) := by
  obtain ⟨hn, hsz, hb⟩ := h
  by_cases hev : c.should_evict (sz v) = true
  · -- eviction runs first
    obtain ⟨T, suffix, hT, hsuf, hcache, hperm, hcur, hmax, henough⟩ := evict_split c (sz v) hn
    have hnc1 : NodupKeys (c.evict_entries (sz v)).cache := nodupKeys_evict hn
    have hszc1 : (c.evict_entries (sz v)).current_size =
        storeSizes (c.evict_entries (sz v)).cache := (memWf_evict ⟨hn, hsz, hb⟩).2.1
    -- the fully-evicted situation, reached both when the victim list is the
    -- whole sorted store and when the store was a single entry
    have exhausted : (c.evict_entries (sz v)).cache = [] →
        MemWf (InMemoryCache.set sz c key v ttl now) ∧
          ((InMemoryCache.set sz c key v ttl now).current_size ≤ (c.max_size : Int) ∨
            ((InMemoryCache.set sz c key v ttl now).cache = [(key, mkEntry sz v ttl now)] ∧
              (c.max_size : Int) < ((sz v : Nat) : Int))) := by
      intro hnil
      have hcur0 : (c.evict_entries (sz v)).current_size = 0 := by
        rw [hszc1, hnil]
        rfl
      rw [memSet_of_evicted_all hev hnil hcur0 hmax]
      refine ⟨⟨?_, ?_, ?_⟩, ?_⟩
      · simp [NodupKeys]
      · show ((sz v : Nat) : Int) = storeSizes [(key, mkEntry sz v ttl now)]
        simp [storeSizes, mkEntry]
      · by_cases hbig : ((sz v : Nat) : Int) ≤ (c.max_size : Int)
        · left
          exact hbig
        · right
          exact ⟨key, mkEntry sz v ttl now, rfl⟩
      · by_cases hbig : ((sz v : Nat) : Int) ≤ (c.max_size : Int)
        · left
          exact hbig
        · right
          exact ⟨rfl, lt_of_not_le hbig⟩
    rcases hb with hcmax | ⟨k0, e0, hc0⟩
    · -- the store obeyed the bound before the insertion
      rcases henough with hreq | hall
      · -- the loop stopped with enough bytes freed
        have hTpos : (0 : Int) ≤ storeSizes T := storeSizes_nonneg T
        cases halt1 : alookup key (c.evict_entries (sz v)).cache with
        | none =>
          have hset : InMemoryCache.set sz c key v ttl now =
              { cache := dictSet key (mkEntry sz v ttl now) (c.evict_entries (sz v)).cache,
                max_size := c.max_size,
                current_size := (c.current_size - storeSizes T) - 0 + ((sz v : Nat) : Int) } := by
            rw [memSet_eq, if_pos hev, halt1, hmax, hcur]
          rw [hset]
          refine ⟨⟨nodupKeys_dictSet hnc1, ?_, ?_⟩, ?_⟩
          · show (c.current_size - storeSizes T) - 0 + ((sz v : Nat) : Int) =
              storeSizes (dictSet key (mkEntry sz v ttl now) (c.evict_entries (sz v)).cache)
            rw [storeSizes_dictSet_not_mem (alookup_eq_none.mp halt1), ← hszc1, hcur]
            rw [show ((mkEntry sz v ttl now).size : Int) = ((sz v : Nat) : Int) from rfl]
            ring
          · left
            show (c.current_size - storeSizes T) - 0 + ((sz v : Nat) : Int) ≤ (c.max_size : Int)
            rw [hsz] at hcmax
            rw [hsz]
            linarith
          · left
            show (c.current_size - storeSizes T) - 0 + ((sz v : Nat) : Int) ≤ (c.max_size : Int)
            rw [hsz] at hcmax
            rw [hsz]
            linarith
        | some old1 =>
          have hold1 : (0 : Int) ≤ (old1.size : Int) := Int.natCast_nonneg _
          have hset : InMemoryCache.set sz c key v ttl now =
              { cache := dictSet key (mkEntry sz v ttl now) (c.evict_entries (sz v)).cache,
                max_size := c.max_size,
                current_size := (c.current_size - storeSizes T) - (old1.size : Int) +
                  ((sz v : Nat) : Int) } := by
            rw [memSet_eq, if_pos hev, halt1, hmax, hcur]
          rw [hset]
          refine ⟨⟨nodupKeys_dictSet hnc1, ?_, ?_⟩, ?_⟩
          · show (c.current_size - storeSizes T) - (old1.size : Int) + ((sz v : Nat) : Int) =
              storeSizes (dictSet key (mkEntry sz v ttl now) (c.evict_entries (sz v)).cache)
            rw [storeSizes_dictSet_mem hnc1 halt1, ← hszc1, hcur]
            rw [show ((mkEntry sz v ttl now).size : Int) = ((sz v : Nat) : Int) from rfl]
          · left
            show (c.current_size - storeSizes T) - (old1.size : Int) + ((sz v : Nat) : Int) ≤
              (c.max_size : Int)
            linarith
          · left
            show (c.current_size - storeSizes T) - (old1.size : Int) + ((sz v : Nat) : Int) ≤
              (c.max_size : Int)
            linarith
      · -- the loop walked the whole (sorted) store
        apply exhausted
        have hsufnil : suffix = [] := by
          have hx := hsuf
          rw [← hall] at hx
          have hx2 : T ++ ([] : List (String × CacheEntry)) = T ++ suffix := by
            simpa using hx
          exact (List.append_cancel_left hx2).symm
        rw [hsufnil] at hperm
        exact hperm.eq_nil
    · -- the store was a single entry: the loop always evicts it first
      apply exhausted
      have hsorted : sortByAccess c.cache = [(k0, e0)] := by
        rw [hc0]
        rfl
      have hTall : T = [(k0, e0)] := by
        rw [hT, hsorted, evictTake]
        rw [if_neg (by have := hpos v; omega)]
        rfl
      have hsufnil : suffix = [] := by
        have hx := hsuf
        rw [hsorted, hTall] at hx
        have hx2 : [(k0, e0)] ++ ([] : List (String × CacheEntry)) =
            [(k0, e0)] ++ suffix := by simpa using hx
        exact (List.append_cancel_left hx2).symm
      rw [hsufnil] at hperm
      exact hperm.eq_nil
  · -- no eviction: the new entry fits
    have hfit : c.current_size + ((sz v : Nat) : Int) ≤ (c.max_size : Int) := by
      rw [InMemoryCache.should_evict] at hev
      have := of_decide_eq_false (Bool.of_not_eq_true hev)
      exact not_lt.mp this
    cases halt : alookup key c.cache with
    | none =>
      have hset : InMemoryCache.set sz c key v ttl now =
          { cache := dictSet key (mkEntry sz v ttl now) c.cache,
            max_size := c.max_size,
            current_size := c.current_size - 0 + ((sz v : Nat) : Int) } := by
        rw [memSet_eq, if_neg hev, halt]
      rw [hset]
      refine ⟨⟨nodupKeys_dictSet hn, ?_, ?_⟩, ?_⟩
      · show c.current_size - 0 + ((sz v : Nat) : Int) =
          storeSizes (dictSet key (mkEntry sz v ttl now) c.cache)
        rw [storeSizes_dictSet_not_mem (alookup_eq_none.mp halt), hsz]
        rw [show ((mkEntry sz v ttl now).size : Int) = ((sz v : Nat) : Int) from rfl]
        ring
      · left
        show c.current_size - 0 + ((sz v : Nat) : Int) ≤ (c.max_size : Int)
        linarith
      · left
        show c.current_size - 0 + ((sz v : Nat) : Int) ≤ (c.max_size : Int)
        linarith
    | some old =>
      have hold : (0 : Int) ≤ (old.size : Int) := Int.natCast_nonneg _
      have hset : InMemoryCache.set sz c key v ttl now =
          { cache := dictSet key (mkEntry sz v ttl now) c.cache,
            max_size := c.max_size,
            current_size := c.current_size - (old.size : Int) + ((sz v : Nat) : Int) } := by
        rw [memSet_eq, if_neg hev, halt]
      rw [hset]
      refine ⟨⟨nodupKeys_dictSet hn, ?_, ?_⟩, ?_⟩
      · show c.current_size - (old.size : Int) + ((sz v : Nat) : Int) =
          storeSizes (dictSet key (mkEntry sz v ttl now) c.cache)
        rw [storeSizes_dictSet_mem hn halt, hsz]
        rw [show ((mkEntry sz v ttl now).size : Int) = ((sz v : Nat) : Int) from rfl]
      · left
        show c.current_size - (old.size : Int) + ((sz v : Nat) : Int) ≤ (c.max_size : Int)
        linarith
      · left
        show c.current_size - (old.size : Int) + ((sz v : Nat) : Int) ≤ (c.max_size : Int)
        linarith

/-! ### Behaviour of the disk-cache operations -/

theorem diskGet_of_no_meta {d : DiskCache} {key : String} {now : Nat}
    (h : alookup key d.metaFiles = Option.none) :
    d.get key now = (PyVal.none, d) := by
  cases h1 : alookup key d.cacheFiles <;> simp [DiskCache.get, h1, h]

theorem diskGet_of_no_payload {d : DiskCache} {key : String} {now : Nat}
    (h : alookup key d.cacheFiles = Option.none) :
    d.get key now = (PyVal.none, d) := by
  cases h2 : alookup key d.metaFiles <;> simp [DiskCache.get, h, h2]

theorem diskGet_corrupt {d : DiskCache} {key : String} {now : Nat} {v : PyVal}
    (hv : alookup key d.cacheFiles = some v)
    (hm : alookup key d.metaFiles = some MetaFile.corrupt) :
    d.get key now = (PyVal.none, d.remove_cache_files key) := by
  simp [DiskCache.get, hv, hm]

theorem diskGet_expired {d : DiskCache} {key : String} {now : Nat} {v : PyVal}
    {m : DiskMeta} (hv : alookup key d.cacheFiles = some v)
    (hm : alookup key d.metaFiles = some (MetaFile.good m)) (hex : now > m.expires_at) :
    d.get key now = (PyVal.none, d.remove_cache_files key) := by
  simp [DiskCache.get, hv, hm, hex]

theorem diskGet_hit {d : DiskCache} {key : String} {now : Nat} {v : PyVal}
    {m : DiskMeta} (hv : alookup key d.cacheFiles = some v)
    (hm : alookup key d.metaFiles = some (MetaFile.good m)) (hex : ¬ now > m.expires_at) :
    d.get key now = (v, { d with metaFiles := dictSet key (MetaFile.good { m with access_time := now, access_count := m.access_count + 1 }) d.metaFiles }) := by
  simp [DiskCache.get, hv, hm, hex]

theorem diskGet_cacheFiles_lookup {d : DiskCache} {key k' : String} {now : Nat} :
    alookup k' (d.get key now).2.cacheFiles = alookup k' d.cacheFiles ∨
      alookup k' (d.get key now).2.cacheFiles = Option.none := by
  cases hv : alookup key d.cacheFiles with
  | none =>
    rw [diskGet_of_no_payload hv]
    left
    rfl
  | some v =>
    cases hm : alookup key d.metaFiles with
    | none =>
      rw [diskGet_of_no_meta hm]
      left
      rfl
    | some mf =>
      cases mf with
      | corrupt =>
        rw [diskGet_corrupt hv hm]
        by_cases hk : k' = key
        · right
          subst hk
          exact alookup_removeKey_self
        · left
          exact alookup_removeKey_ne hk
      | good m =>
        by_cases hex : now > m.expires_at
        · rw [diskGet_expired hv hm hex]
          by_cases hk : k' = key
          · right
            subst hk
            exact alookup_removeKey_self
          · left
            exact alookup_removeKey_ne hk
        · rw [diskGet_hit hv hm hex]
          left
          rfl

/-! ### Behaviour of the memoize wrapper -/

theorem cache_result_first (sz : PyVal → Nat) (cfg : CacheConfig) (ttl : Nat)
    (use_disk : Bool) (call : MemoCall) (s : CacheManagerState) (t : Nat)
    (hm : alookup (generate_key call.func_name call.args call.kwargs)
      s.memory_cache.cache = Option.none)
    (hd : alookup (generate_key call.func_name call.args call.kwargs)
      s.disk_cache.metaFiles = Option.none) :
    (cache_result sz cfg ttl use_disk call s t).1 = call.result ∧
    (cache_result sz cfg ttl use_disk call s t).2.1 = true ∧
    (cache_result sz cfg ttl use_disk call s t).2.2.memory_cache =
      InMemoryCache.set sz s.memory_cache
        (generate_key call.func_name call.args call.kwargs) call.result ttl t := by
  by_cases hflag : (use_disk && cfg.enable_data_cache) = true
  · simp [cache_result, memGet_of_absent hm, diskGet_of_no_meta hd, hflag, PyVal.isNone]
  · simp [cache_result, memGet_of_absent hm, hflag, PyVal.isNone]

theorem cache_result_hit_step (sz : PyVal → Nat) (cfg : CacheConfig) (ttl : Nat)
    (use_disk : Bool) (call : MemoCall) (s : CacheManagerState) (t t0 : Nat)
    {e : CacheEntry}
    (hres : call.result.isNone = false)
    (he : alookup (generate_key call.func_name call.args call.kwargs)
      s.memory_cache.cache = some e)
    (hv : e.value = call.result) (hc : e.created_time = t0) (htt : e.ttl = ttl)
    (hle : t - t0 ≤ ttl) :
    (cache_result sz cfg ttl use_disk call s t).1 = call.result ∧
    (cache_result sz cfg ttl use_disk call s t).2.1 = false ∧
    alookup (generate_key call.func_name call.args call.kwargs)
      (cache_result sz cfg ttl use_disk call s t).2.2.memory_cache.cache =
      some (e.touch t) := by
  have hex : e.is_expired t = false := by
    rw [CacheEntry.is_expired, hc, htt]
    simp only [decide_eq_false_iff_not, not_lt]
    exact hle
  have hnone : (e.value).isNone = false := by
    rw [hv]
    exact hres
  refine ⟨?_, ?_, ?_⟩
  · simp [cache_result, memGet_of_live he hex, hv, hres]
  · simp [cache_result, memGet_of_live he hex, hv, hres]
  · simp only [cache_result, memGet_of_live he hex, hv, hres]
    simp [alookup_dictSet_self]

theorem callSeq_cached_steps (sz : PyVal → Nat) (cfg : CacheConfig) (ttl : Nat)
    (use_disk : Bool) (call : MemoCall) (t0 : Nat)
    (hres : call.result.isNone = false) :
    ∀ (ts : List Nat) (s : CacheManagerState),
    (∃ e, alookup (generate_key call.func_name call.args call.kwargs)
        s.memory_cache.cache = some e ∧
      e.value = call.result ∧ e.created_time = t0 ∧ e.ttl = ttl) →
    (∀ t ∈ ts, t - t0 ≤ ttl) →
    (callSeq sz cfg ttl use_disk call ts s).1 =
      ts.map (fun _ => (call.result, false)) := by
  intro ts
  induction ts with
  | nil => intro s _ _; rfl
  | cons t ts ih =>
    intro s hInv hle
    obtain ⟨e, he, hv, hc, htt⟩ := hInv
    obtain ⟨h1, h2, h3⟩ := cache_result_hit_step sz cfg ttl use_disk call s t t0
      hres he hv hc htt (hle t (List.mem_cons_self t ts))
    simp only [callSeq]
    rw [List.map_cons]
    have hrest := ih (cache_result sz cfg ttl use_disk call s t).2.2
      ⟨e.touch t, h3, hv, hc, htt⟩
      (fun u hu => hle u (List.mem_cons_of_mem t hu))
    rw [hrest, h1, h2]

theorem cache_result_of_hit (sz : PyVal → Nat) (cfg : CacheConfig) (ttl : Nat)
    (use_disk : Bool) (call : MemoCall) (s : CacheManagerState) (t : Nat)
    (h1 : (s.memory_cache.get (generate_key call.func_name call.args call.kwargs) t).1.isNone
      = false) :
    cache_result sz cfg ttl use_disk call s t =
      ((s.memory_cache.get (generate_key call.func_name call.args call.kwargs) t).1, false,
        { memory_cache := (s.memory_cache.get (generate_key call.func_name call.args call.kwargs) t).2,
          disk_cache := s.disk_cache }) := by
  simp [cache_result, h1]

theorem cache_result_no_disk (sz : PyVal → Nat) (cfg : CacheConfig) (ttl : Nat)
    (use_disk : Bool) (call : MemoCall) (s : CacheManagerState) (t : Nat)
    (h1 : (s.memory_cache.get (generate_key call.func_name call.args call.kwargs) t).1.isNone
      = true)
    (hflag : (use_disk && cfg.enable_data_cache) = false) :
    cache_result sz cfg ttl use_disk call s t =
      (call.result, true,
        { memory_cache := InMemoryCache.set sz
            (s.memory_cache.get (generate_key call.func_name call.args call.kwargs) t).2
            (generate_key call.func_name call.args call.kwargs) call.result ttl t,
          disk_cache := s.disk_cache }) := by
  simp [cache_result, h1, hflag]

theorem cache_result_disk_miss (sz : PyVal → Nat) (cfg : CacheConfig) (ttl : Nat)
    (use_disk : Bool) (call : MemoCall) (s : CacheManagerState) (t : Nat)
    (h1 : (s.memory_cache.get (generate_key call.func_name call.args call.kwargs) t).1.isNone
      = true)
    (hflag : (use_disk && cfg.enable_data_cache) = true)
    (h2 : (s.disk_cache.get (generate_key call.func_name call.args call.kwargs) t).1.isNone
      = true) :
    cache_result sz cfg ttl use_disk call s t =
      (call.result, true,
        { memory_cache := InMemoryCache.set sz
            (s.memory_cache.get (generate_key call.func_name call.args call.kwargs) t).2
            (generate_key call.func_name call.args call.kwargs) call.result ttl t,
          disk_cache := DiskCache.set
            (s.disk_cache.get (generate_key call.func_name call.args call.kwargs) t).2
            (generate_key call.func_name call.args call.kwargs) call.result ttl t }) := by
  simp [cache_result, h1, h2, hflag]

theorem cache_result_of_promote (sz : PyVal → Nat) (cfg : CacheConfig) (ttl : Nat)
    (use_disk : Bool) (call : MemoCall) (s : CacheManagerState) (t : Nat)
    (h1 : (s.memory_cache.get (generate_key call.func_name call.args call.kwargs) t).1.isNone
      = true)
    (hflag : (use_disk && cfg.enable_data_cache) = true)
    (h2 : (s.disk_cache.get (generate_key call.func_name call.args call.kwargs) t).1.isNone
      = false) :
    cache_result sz cfg ttl use_disk call s t =
      ((s.disk_cache.get (generate_key call.func_name call.args call.kwargs) t).1, false,
        { memory_cache := InMemoryCache.set sz
            (s.memory_cache.get (generate_key call.func_name call.args call.kwargs) t).2
            (generate_key call.func_name call.args call.kwargs)
            (s.disk_cache.get (generate_key call.func_name call.args call.kwargs) t).1 ttl t,
          disk_cache := (s.disk_cache.get (generate_key call.func_name call.args call.kwargs) t).2 }) := by
  simp [cache_result, h1, h2, hflag]

theorem cache_result_none_step (sz : PyVal → Nat) (cfg : CacheConfig) (ttl : Nat)
    (use_disk : Bool) (call : MemoCall) (s : CacheManagerState) (t : Nat)
    (hres : call.result = PyVal.none)
    (hmem : ∀ e, alookup (generate_key call.func_name call.args call.kwargs)
      s.memory_cache.cache = some e → e.value = PyVal.none)
    (hdisk : ∀ v, alookup (generate_key call.func_name call.args call.kwargs)
      s.disk_cache.cacheFiles = some v → v = PyVal.none) :
    (cache_result sz cfg ttl use_disk call s t).2.1 = true ∧
    (∀ e, alookup (generate_key call.func_name call.args call.kwargs)
      (cache_result sz cfg ttl use_disk call s t).2.2.memory_cache.cache = some e →
      e.value = PyVal.none) ∧
    (∀ v, alookup (generate_key call.func_name call.args call.kwargs)
      (cache_result sz cfg ttl use_disk call s t).2.2.disk_cache.cacheFiles = some v →
      v = PyVal.none) := by
  have hmiss : (s.memory_cache.get (generate_key call.func_name call.args call.kwargs) t).1.isNone
      = true := by
    cases h : alookup (generate_key call.func_name call.args call.kwargs)
        s.memory_cache.cache with
    | none => rw [memGet_of_absent h]; rfl
    | some e =>
      cases hex : e.is_expired t with
      | true => rw [memGet_of_expired h hex]; rfl
      | false =>
        rw [memGet_of_live h hex]
        show e.value.isNone = true
        rw [hmem e h]
        rfl
  have hmemset : ∀ s1 : InMemoryCache, ∀ e, alookup (generate_key call.func_name call.args call.kwargs)
      (InMemoryCache.set sz s1 (generate_key call.func_name call.args call.kwargs)
        call.result ttl t).cache = some e → e.value = PyVal.none := by
    intro s1 e he
    rw [memSet_lookup_self] at he
    rw [← Option.some.inj he, hres]
    rfl
  by_cases hflag : (use_disk && cfg.enable_data_cache) = true
  · have hdmiss : (s.disk_cache.get (generate_key call.func_name call.args call.kwargs) t).1.isNone
        = true := by
      cases hv : alookup (generate_key call.func_name call.args call.kwargs)
          s.disk_cache.cacheFiles with
      | none => rw [diskGet_of_no_payload hv]; rfl
      | some v =>
        cases hmf : alookup (generate_key call.func_name call.args call.kwargs)
            s.disk_cache.metaFiles with
        | none => rw [diskGet_of_no_meta hmf]; rfl
        | some mf =>
          cases mf with
          | corrupt => rw [diskGet_corrupt hv hmf]; rfl
          | good m =>
            by_cases hex : t > m.expires_at
            · rw [diskGet_expired hv hmf hex]; rfl
            · rw [diskGet_hit hv hmf hex]
              show v.isNone = true
              rw [hdisk v hv]
              rfl
    rw [cache_result_disk_miss sz cfg ttl use_disk call s t hmiss hflag hdmiss]
    refine ⟨rfl, hmemset _, ?_⟩
    intro v hv
    rw [show (DiskCache.set (s.disk_cache.get (generate_key call.func_name call.args call.kwargs) t).2
        (generate_key call.func_name call.args call.kwargs) call.result ttl t).cacheFiles =
        dictSet (generate_key call.func_name call.args call.kwargs) call.result
          (s.disk_cache.get (generate_key call.func_name call.args call.kwargs) t).2.cacheFiles
        from rfl] at hv
    rw [alookup_dictSet_self] at hv
    rw [← Option.some.inj hv, hres]
  · have hflag' : (use_disk && cfg.enable_data_cache) = false := Bool.of_not_eq_true hflag
    rw [cache_result_no_disk sz cfg ttl use_disk call s t hmiss hflag']
    exact ⟨rfl, hmemset _, hdisk⟩

/-! ### Characterization of `cleanup_expired` -/

theorem alookup_filter_in {β : Type} {key : String} {ks : List String}
    {l : List (String × β)} (h : key ∈ ks) :
    alookup key (l.filter (fun p => decide (p.1 ∉ ks))) = Option.none := by
  rw [alookup_eq_none]
  intro hc
  obtain ⟨p, hp, h1⟩ := List.mem_map.mp hc
  have h2 := List.of_mem_filter hp
  rw [decide_eq_true_eq] at h2
  rw [h1] at h2
  exact h2 h

theorem alookup_filter_notin {β : Type} {key : String} {ks : List String}
    {l : List (String × β)} (h : key ∉ ks) :
    alookup key (l.filter (fun p => decide (p.1 ∉ ks))) = alookup key l := by
  induction l with
  | nil => rfl
  | cons p rest ih =>
    obtain ⟨k, w⟩ := p
    by_cases hk : k ∈ ks
    · rw [List.filter_cons, if_neg (by simp [hk])]
      have hkk : k ≠ key := fun hc => h (hc ▸ hk)
      rw [show alookup key ((k, w) :: rest) = alookup key rest from by
        simp only [alookup]; rw [if_neg hkk]]
      exact ih
    · rw [List.filter_cons, if_pos (by simp [hk])]
      simp only [alookup]
      by_cases hk' : k = key
      · rw [if_pos hk', if_pos hk']
      · rw [if_neg hk', if_neg hk']
        exact ih

theorem cleanupGo_spec (now : Nat) :
    ∀ (ms : List (String × MetaFile)) (d : DiskCache),
    cleanupGo now ms d =
      { cacheFiles := d.cacheFiles.filter
          (fun p => decide (p.1 ∉ payloadRemovedKeys now ms)),
        metaFiles := d.metaFiles.filter
          (fun p => decide (p.1 ∉ metaRemovedKeys now ms)) } := by
  intro ms
  induction ms with
  | nil =>
    intro d
    cases d
    simp [cleanupGo, payloadRemovedKeys, metaRemovedKeys]
  | cons pm rest ih =>
    intro d
    obtain ⟨key, mf⟩ := pm
    cases mf with
    | good m =>
      by_cases hex : now > m.expires_at
      · rw [show cleanupGo now ((key, MetaFile.good m) :: rest) d =
            cleanupGo now rest (d.remove_cache_files key) from by
          simp [cleanupGo, hex]]
        rw [ih]
        have hpk : payloadRemovedKeys now ((key, MetaFile.good m) :: rest) =
            key :: payloadRemovedKeys now rest := by
          simp [payloadRemovedKeys, hex]
        have hmk : metaRemovedKeys now ((key, MetaFile.good m) :: rest) =
            key :: metaRemovedKeys now rest := by
          simp [metaRemovedKeys, hex]
        rw [hpk, hmk]
        congr 1
        · rw [show (d.remove_cache_files key).cacheFiles = removeKey key d.cacheFiles
            from rfl]
          rw [removeKey, List.filter_filter]
          apply List.filter_congr
          intro p _
          by_cases h1 : p.1 = key <;>
            by_cases h2 : p.1 ∈ payloadRemovedKeys now rest <;>
            simp [h1, h2]
        · rw [show (d.remove_cache_files key).metaFiles = removeKey key d.metaFiles
            from rfl]
          rw [removeKey, List.filter_filter]
          apply List.filter_congr
          intro p _
          by_cases h1 : p.1 = key <;>
            by_cases h2 : p.1 ∈ metaRemovedKeys now rest <;>
            simp [h1, h2]
      · rw [show cleanupGo now ((key, MetaFile.good m) :: rest) d =
            cleanupGo now rest d from by simp [cleanupGo, hex]]
        rw [ih]
        have hpk : payloadRemovedKeys now ((key, MetaFile.good m) :: rest) =
            payloadRemovedKeys now rest := by
          simp [payloadRemovedKeys, hex]
        have hmk : metaRemovedKeys now ((key, MetaFile.good m) :: rest) =
            metaRemovedKeys now rest := by
          simp [metaRemovedKeys, hex]
        rw [hpk, hmk]
    | corrupt =>
      rw [show cleanupGo now ((key, MetaFile.corrupt) :: rest) d =
          cleanupGo now rest { d with metaFiles := removeKey key d.metaFiles } from by
        simp [cleanupGo]]
      rw [ih]
      have hpk : payloadRemovedKeys now ((key, MetaFile.corrupt) :: rest) =
          payloadRemovedKeys now rest := by
        simp [payloadRemovedKeys]
      have hmk : metaRemovedKeys now ((key, MetaFile.corrupt) :: rest) =
          key :: metaRemovedKeys now rest := by
        simp [metaRemovedKeys]
      rw [hpk, hmk]
      congr 1
      rw [removeKey, List.filter_filter]
      apply List.filter_congr
      intro p _
      by_cases h1 : p.1 = key <;>
        by_cases h2 : p.1 ∈ metaRemovedKeys now rest <;>
        simp [h1, h2]

/-! ## Claim theorems -/

/-- C1 counterexample: the claim "within one TTL window the wrapped
computation is invoked at most once per unique cache key in sequential
use" fails as stated.  A memoized computation whose result is `None`
is re-invoked on every sequential call with the same key, because both
cache tiers signal a miss with the same `None` value: two immediate
calls of a `None`-returning operation both invoke it. -/
theorem c1_counterexample :
    ((callSeq (fun _ => 64) ⟨true⟩ 100 true ⟨"f", [], [], PyVal.none⟩ [0, 0]
        ⟨⟨[], 1000, 0⟩, ⟨[], []⟩⟩).1.map Prod.snd) = [true, true] := rfl

/-- C1 (amended): provided the computed result is not `None`, the
wrapped computation runs at most once per unique cache key per TTL
window in sequential use: starting from a state with no memory entry
and no disk record for the key, the first call invokes the computation
and every later call at a time within `ttl` of the first returns the
cached value without invoking it. -/
theorem c1_memoize_at_most_once (sz : PyVal → Nat) (cfg : CacheConfig) (ttl : Nat)
    (use_disk : Bool) (call : MemoCall) (s0 : CacheManagerState) (t0 : Nat)
    (rest : List Nat)
    (hres : call.result.isNone = false)
    (hm : alookup (generate_key call.func_name call.args call.kwargs)
      s0.memory_cache.cache = Option.none)
    (hd : alookup (generate_key call.func_name call.args call.kwargs)
      s0.disk_cache.metaFiles = Option.none)
    (ht : ∀ t ∈ rest, t - t0 ≤ ttl) :
    (callSeq sz cfg ttl use_disk call (t0 :: rest) s0).1.map Prod.snd =
      true :: rest.map (fun _ => false) ∧
    ∀ r ∈ (callSeq sz cfg ttl use_disk call (t0 :: rest) s0).1, r.1 = call.result := by
  obtain ⟨h1, h2, h3⟩ := cache_result_first sz cfg ttl use_disk call s0 t0 hm hd
  have hInv : ∃ e, alookup (generate_key call.func_name call.args call.kwargs)
      (cache_result sz cfg ttl use_disk call s0 t0).2.2.memory_cache.cache = some e ∧
      e.value = call.result ∧ e.created_time = t0 ∧ e.ttl = ttl := by
    refine ⟨mkEntry sz call.result ttl t0, ?_, rfl, rfl, rfl⟩
    rw [h3]
    exact memSet_lookup_self sz s0.memory_cache _ call.result ttl t0
  have hrest := callSeq_cached_steps sz cfg ttl use_disk call t0 hres rest
    (cache_result sz cfg ttl use_disk call s0 t0).2.2 hInv ht
  constructor
  · simp only [callSeq, List.map_cons]
    rw [hrest, h2]
    simp
  · intro r hr
    simp only [callSeq] at hr
    rcases List.mem_cons.mp hr with hr | hr
    · rw [hr]
      exact h1
    · rw [hrest] at hr
      obtain ⟨t, _, hre⟩ := List.mem_map.mp hr
      rw [← hre]

/-- C1 witness: a concrete non-`None` computation memoized with
`ttl = 100` is invoked on the first call at time 5 and served from
cache at times 17 and 99. -/
theorem c1_witness :
    (callSeq (fun _ => 64) ⟨true⟩ 100 true ⟨"f", [], [], PyVal.int 42⟩ [5, 17, 99]
        ⟨⟨[], 1000, 0⟩, ⟨[], []⟩⟩).1.map Prod.snd = [true, false, false] := by
  have h := c1_memoize_at_most_once (fun _ => 64) ⟨true⟩ 100 true
    ⟨"f", [], [], PyVal.int 42⟩ ⟨⟨[], 1000, 0⟩, ⟨[], []⟩⟩ 5 [17, 99]
    rfl rfl rfl (by decide)
  simpa using h.1

/-- C2: the memoize wrapper checks the memory tier first and returns
immediately on a hit (the disk tier is left untouched); the disk tier
is only consulted or written when `use_disk` is set (the source also
requires `enable_data_cache`, so `use_disk` is necessary, as the claim
states); on a disk hit the value is promoted into the memory tier as a
brand-new entry with `created_time = now` and the full `ttl` (a fresh
TTL window, not the remaining one) before returning; on a full miss
the wrapped computation is invoked, its result is always stored into
the memory tier, and it is stored into the disk tier exactly when the
disk flags are on. -/
theorem c2_memoize_tier_order (sz : PyVal → Nat) (cfg : CacheConfig) (ttl : Nat)
    (use_disk : Bool) (call : MemoCall) (s : CacheManagerState) (now : Nat) :
    ((s.memory_cache.get (generate_key call.func_name call.args call.kwargs) now).1.isNone
        = false →
      cache_result sz cfg ttl use_disk call s now =
        ((s.memory_cache.get (generate_key call.func_name call.args call.kwargs) now).1, false,
          { memory_cache :=
              (s.memory_cache.get (generate_key call.func_name call.args call.kwargs) now).2,
            disk_cache := s.disk_cache }))
    ∧ (use_disk = false →
        (cache_result sz cfg ttl use_disk call s now).2.2.disk_cache = s.disk_cache)
    ∧ ((s.memory_cache.get (generate_key call.func_name call.args call.kwargs) now).1.isNone
        = true →
      (use_disk && cfg.enable_data_cache) = true →
      (s.disk_cache.get (generate_key call.func_name call.args call.kwargs) now).1.isNone
        = false →
      (cache_result sz cfg ttl use_disk call s now).1 =
        (s.disk_cache.get (generate_key call.func_name call.args call.kwargs) now).1 ∧
      (cache_result sz cfg ttl use_disk call s now).2.1 = false ∧
      alookup (generate_key call.func_name call.args call.kwargs)
        (cache_result sz cfg ttl use_disk call s now).2.2.memory_cache.cache =
        some (mkEntry sz
          (s.disk_cache.get (generate_key call.func_name call.args call.kwargs) now).1 ttl now))
    ∧ ((s.memory_cache.get (generate_key call.func_name call.args call.kwargs) now).1.isNone
        = true →
      ((use_disk && cfg.enable_data_cache) = true →
        (s.disk_cache.get (generate_key call.func_name call.args call.kwargs) now).1.isNone
          = true) →
      (cache_result sz cfg ttl use_disk call s now).1 = call.result ∧
      (cache_result sz cfg ttl use_disk call s now).2.1 = true ∧
      alookup (generate_key call.func_name call.args call.kwargs)
        (cache_result sz cfg ttl use_disk call s now).2.2.memory_cache.cache =
        some (mkEntry sz call.result ttl now) ∧
      ((use_disk && cfg.enable_data_cache) = true →
        alookup (generate_key call.func_name call.args call.kwargs)
          (cache_result sz cfg ttl use_disk call s now).2.2.disk_cache.cacheFiles =
          some call.result ∧
        alookup (generate_key call.func_name call.args call.kwargs)
          (cache_result sz cfg ttl use_disk call s now).2.2.disk_cache.metaFiles =
          some (MetaFile.good ⟨now, now, 1, now + ttl, ttl⟩)) ∧
      ((use_disk && cfg.enable_data_cache) = false →
        (cache_result sz cfg ttl use_disk call s now).2.2.disk_cache = s.disk_cache)) := by
  refine ⟨?_, ?_, ?_, ?_⟩
  · intro h1
    exact cache_result_of_hit sz cfg ttl use_disk call s now h1
  · intro hud
    by_cases h1 : (s.memory_cache.get (generate_key call.func_name call.args call.kwargs) now).1.isNone = true
    · have hflag : (use_disk && cfg.enable_data_cache) = false := by
        rw [hud]
        rfl
      rw [cache_result_no_disk sz cfg ttl use_disk call s now h1 hflag]
    · rw [cache_result_of_hit sz cfg ttl use_disk call s now (Bool.of_not_eq_true h1)]
  · intro h1 hflag h2
    rw [cache_result_of_promote sz cfg ttl use_disk call s now h1 hflag h2]
    refine ⟨rfl, rfl, ?_⟩
    exact memSet_lookup_self sz _ _ _ ttl now
  · intro h1 h2
    by_cases hflag : (use_disk && cfg.enable_data_cache) = true
    · rw [cache_result_disk_miss sz cfg ttl use_disk call s now h1 hflag (h2 hflag)]
      refine ⟨rfl, rfl, memSet_lookup_self sz _ _ _ ttl now, ?_, ?_⟩
      · intro _
        constructor
        · exact alookup_dictSet_self
        · exact alookup_dictSet_self
      · intro hc
        rw [hflag] at hc
        cases hc
    · have hflag' : (use_disk && cfg.enable_data_cache) = false := Bool.of_not_eq_true hflag
      rw [cache_result_no_disk sz cfg ttl use_disk call s now h1 hflag']
      refine ⟨rfl, rfl, memSet_lookup_self sz _ _ _ ttl now, ?_, fun _ => rfl⟩
      intro hc
      rw [hflag'] at hc
      cases hc

/-- C2 witness: with an empty memory tier and a live disk record for
the key holding 7, the memoized call returns 7 without invoking the
computation (whose own result is 42) and installs a fresh memory entry
created at the call time with the wrapper's full `ttl` of 100. -/
theorem c2_witness :
    (cache_result (fun _ => 64) ⟨true⟩ 100 true ⟨"f", [], [], PyVal.int 42⟩
        ⟨⟨[], 1000, 0⟩,
          ⟨[(generate_key "f" [] [], PyVal.int 7)],
           [(generate_key "f" [] [], MetaFile.good ⟨0, 0, 1, 50, 50⟩)]⟩⟩ 10).1 =
      PyVal.int 7 ∧
    (cache_result (fun _ => 64) ⟨true⟩ 100 true ⟨"f", [], [], PyVal.int 42⟩
        ⟨⟨[], 1000, 0⟩,
          ⟨[(generate_key "f" [] [], PyVal.int 7)],
           [(generate_key "f" [] [], MetaFile.good ⟨0, 0, 1, 50, 50⟩)]⟩⟩ 10).2.1 = false ∧
    alookup (generate_key "f" [] [])
      (cache_result (fun _ => 64) ⟨true⟩ 100 true ⟨"f", [], [], PyVal.int 42⟩
        ⟨⟨[], 1000, 0⟩,
          ⟨[(generate_key "f" [] [], PyVal.int 7)],
           [(generate_key "f" [] [], MetaFile.good ⟨0, 0, 1, 50, 50⟩)]⟩⟩ 10).2.2.memory_cache.cache =
      some (mkEntry (fun _ => 64) (PyVal.int 7) 100 10) := by
  have h := (c2_memoize_tier_order (fun _ => 64) ⟨true⟩ 100 true
    ⟨"f", [], [], PyVal.int 42⟩
    ⟨⟨[], 1000, 0⟩,
      ⟨[(generate_key "f" [] [], PyVal.int 7)],
       [(generate_key "f" [] [], MetaFile.good ⟨0, 0, 1, 50, 50⟩)]⟩⟩ 10).2.2.1
    rfl rfl rfl
  exact ⟨h.1, h.2.1, h.2.2⟩

/-- C10: a memoized result of `None` is never served from either cache
tier.  The memory tier's `get` returns `None` both for a missing key
and for a live entry whose stored value is `None`; the disk tier's
`get` likewise returns `None` both for missing files and for a stored
`None` payload; consequently, for a computation returning `None`,
every sequential memoized call invokes the computation again. -/
theorem c10_none_never_cached :
    (∀ (c : InMemoryCache) (key : String) (now : Nat) (e : CacheEntry),
      alookup key c.cache = some e → e.value = PyVal.none →
      (c.get key now).1 = PyVal.none) ∧
    (∀ (c : InMemoryCache) (key : String) (now : Nat),
      alookup key c.cache = Option.none → (c.get key now).1 = PyVal.none) ∧
    (∀ (d : DiskCache) (key : String) (now : Nat) (v : PyVal),
      alookup key d.cacheFiles = some v → v = PyVal.none →
      (d.get key now).1 = PyVal.none) ∧
    (∀ (d : DiskCache) (key : String) (now : Nat),
      alookup key d.cacheFiles = Option.none → (d.get key now).1 = PyVal.none) ∧
    (∀ (sz : PyVal → Nat) (cfg : CacheConfig) (ttl : Nat) (use_disk : Bool)
      (call : MemoCall) (ts : List Nat) (s : CacheManagerState),
      call.result = PyVal.none →
      (∀ e, alookup (generate_key call.func_name call.args call.kwargs)
        s.memory_cache.cache = some e → e.value = PyVal.none) →
      (∀ v, alookup (generate_key call.func_name call.args call.kwargs)
        s.disk_cache.cacheFiles = some v → v = PyVal.none) →
      (callSeq sz cfg ttl use_disk call ts s).1.map Prod.snd =
        ts.map (fun _ => true)) := by
  refine ⟨?_, ?_, ?_, ?_, ?_⟩
  · intro c key now e he hv
    cases hex : e.is_expired now with
    | true => rw [memGet_of_expired he hex]
    | false =>
      rw [memGet_of_live he hex]
      exact hv
  · intro c key now h
    rw [memGet_of_absent h]
  · intro d key now v hv hnone
    cases hmf : alookup key d.metaFiles with
    | none => rw [diskGet_of_no_meta hmf]
    | some mf =>
      cases mf with
      | corrupt => rw [diskGet_corrupt hv hmf]
      | good m =>
        by_cases hex : now > m.expires_at
        · rw [diskGet_expired hv hmf hex]
        · rw [diskGet_hit hv hmf hex]
          exact hnone
  · intro d key now h
    rw [diskGet_of_no_payload h]
  · intro sz cfg ttl use_disk call ts
    induction ts with
    | nil => intro s _ _ _; rfl
    | cons t ts ih =>
      intro s hres hmem hdisk
      obtain ⟨h1, h2, h3⟩ := cache_result_none_step sz cfg ttl use_disk call s t
        hres hmem hdisk
      simp only [callSeq, List.map_cons]
      rw [ih (cache_result sz cfg ttl use_disk call s t).2.2 hres h2 h3, h1]

/-- C10 witness: three sequential calls of a `None`-returning memoized
computation on a fresh two-tier cache all invoke the computation. -/
theorem c10_witness :
    (callSeq (fun _ => 64) ⟨true⟩ 100 true ⟨"g", [], [], PyVal.none⟩ [1, 2, 3]
      ⟨⟨[], 1000, 0⟩, ⟨[], []⟩⟩).1.map Prod.snd = [true, true, true] := by
  have h := c10_none_never_cached.2.2.2.2 (fun _ => 64) ⟨true⟩ 100 true
    ⟨"g", [], [], PyVal.none⟩ [1, 2, 3] ⟨⟨[], 1000, 0⟩, ⟨[], []⟩⟩ rfl
    (fun e he => by cases he) (fun v hv => by cases hv)
  simpa using h

/-- C3 counterexample: the claimed tie-break — "ties on equal
lastAccessAt are broken by ascending accessCount and then by key
ordering" — fails as stated.  With two entries of equal `access_time`
(5) and equal `access_count` (1), the claimed rule would evict key
"a" first (key order), but Python's stable sort keeps the dict's
insertion order, so the first-inserted key "b" is evicted and "a"
survives. -/
theorem c3_counterexample :
    (InMemoryCache.evict_entries
        ⟨[("b", ⟨PyVal.int 2, 0, 5, 1, 100, 10⟩), ("a", ⟨PyVal.int 1, 0, 5, 1, 100, 10⟩)],
          15, 20⟩ 10).cache.map Prod.fst = ["a"] ∧ (["a"] : List String) ≠ ["b"] := by
  exact ⟨rfl, by decide⟩

/-- C3 (amended): `_evict_entries` removes entries in ascending
`access_time` order (least-recently-used first, not insertion or FIFO
order) until the freed size reaches the requested size (or the store
is empty); ties on equal `access_time` are broken by the store's
insertion order (Python's `sorted` is stable), which keeps eviction
deterministic; and an entry whose `access_time` was refreshed by a
`get` survives over a never-accessed entry with strictly older
`access_time`. -/
theorem c3_lru_eviction_amended (c : InMemoryCache) (required : Nat)
    (hn : NodupKeys c.cache) :
    (∀ p1 ∈ c.cache, p1 ∉ (c.evict_entries required).cache →
      ∀ p2 ∈ (c.evict_entries required).cache, p1.2.access_time ≤ p2.2.access_time) ∧
    (∀ p1 p2 : String × CacheEntry, Before p1 p2 c.cache →
      p1.2.access_time = p2.2.access_time →
      p2 ∉ (c.evict_entries required).cache → p1 ∉ (c.evict_entries required).cache) ∧
    (∀ p1 ∈ c.cache, ∀ p2 ∈ c.cache, p1.2.access_time < p2.2.access_time →
      p2 ∉ (c.evict_entries required).cache → p1 ∉ (c.evict_entries required).cache) ∧
    (storeSizes c.cache - storeSizes (c.evict_entries required).cache ≥ (required : Int) ∨
      (c.evict_entries required).cache = []) := by
  obtain ⟨T, suffix, hT, hsuf, hcache, hperm, hcur, hmax, henough⟩ := evict_split c required hn
  have hsp : (sortByAccess c.cache).Perm c.cache := stableSortBy_perm _ _
  have hpairs_nodup : c.cache.Nodup := List.Nodup.of_map Prod.fst hn
  have hmem_evicted : ∀ p, p ∈ c.cache → p ∉ (c.evict_entries required).cache → p ∈ T := by
    intro p hp hnp
    by_cases hkey : p.1 ∈ T.map Prod.fst
    · obtain ⟨q, hq, hq1⟩ := List.mem_map.mp hkey
      have hqsorted : q ∈ sortByAccess c.cache := by
        rw [hsuf]
        exact List.mem_append.mpr (Or.inl hq)
      have hqcache : q ∈ c.cache := hsp.subset hqsorted
      have hqc2 : (p.1, q.2) ∈ c.cache := by
        rw [← hq1]
        exact hqcache
      have hpc2 : (p.1, p.2) ∈ c.cache := hp
      have hq2 : q.2 = p.2 := nodupKeys_entry_eq hn hqc2 hpc2
      have hpq : p = q := Prod.ext_iff.mpr ⟨hq1.symm, hq2.symm⟩
      rw [hpq]
      exact hq
    · exfalso
      apply hnp
      rw [hcache]
      refine List.mem_filter.mpr ⟨hp, ?_⟩
      simpa using hkey
  have hmem_kept : ∀ p, p ∈ (c.evict_entries required).cache → p ∈ suffix := by
    intro p hp
    rw [hcache] at hp
    have hpc := List.mem_filter.mp hp
    have hkey : p.1 ∉ T.map Prod.fst := by simpa using hpc.2
    have hpsorted : p ∈ sortByAccess c.cache := hsp.symm.subset hpc.1
    rw [hsuf] at hpsorted
    rcases List.mem_append.mp hpsorted with hin | hin
    · exact absurd (List.mem_map.mpr ⟨p, hin, rfl⟩) hkey
    · exact hin
  have hpw : (sortByAccess c.cache).Pairwise
      (fun a b : String × CacheEntry => a.2.access_time ≤ b.2.access_time) :=
    pairwise_stableSortBy _ c.cache
  rw [hsuf] at hpw
  have hTS := (List.pairwise_append.mp hpw).2.2
  refine ⟨?_, ?_, ?_, ?_⟩
  · intro p1 hp1 hnp1 p2 hp2
    exact hTS p1 (hmem_evicted p1 hp1 hnp1) p2 (hmem_kept p2 hp2)
  · intro p1 p2 hb ht hnp2
    intro hp1in
    obtain ⟨A, B, hl, hy⟩ := hb
    have hp1c : p1 ∈ c.cache := by
      rw [hl]
      exact List.mem_append.mpr (Or.inr (List.mem_cons_self _ _))
    have hp2c : p2 ∈ c.cache := by
      rw [hl]
      exact List.mem_append.mpr (Or.inr (List.mem_cons_of_mem _ hy))
    have hp2T := hmem_evicted p2 hp2c hnp2
    have hp1S := hmem_kept p1 hp1in
    have hb2 : Before p2 p1 (sortByAccess c.cache) := by
      rw [hsuf]
      exact before_of_append hp2T hp1S
    have hstab : ((sortByAccess c.cache).filter
        (fun q : String × CacheEntry => decide (q.2.access_time = p1.2.access_time))) =
        (c.cache.filter
        (fun q : String × CacheEntry => decide (q.2.access_time = p1.2.access_time))) :=
      filter_stableSortBy (fun q : String × CacheEntry => q.2.access_time)
        (fun q : String × CacheEntry => decide (q.2.access_time = p1.2.access_time))
        p1.2.access_time (fun a ha => of_decide_eq_true ha) c.cache
    have hb1' : Before p1 p2 (c.cache.filter
        (fun q : String × CacheEntry => decide (q.2.access_time = p1.2.access_time))) :=
      before_filter ⟨A, B, hl, hy⟩ (by simp) (by simp [ht.symm])
    have hb2' : Before p2 p1 ((sortByAccess c.cache).filter
        (fun q : String × CacheEntry => decide (q.2.access_time = p1.2.access_time))) :=
      before_filter hb2 (by simp [ht.symm]) (by simp)
    rw [hstab] at hb2'
    exact before_asymm (hpairs_nodup.filter _) hb1' hb2'
  · intro p1 hp1 p2 hp2 hlt hnp2
    intro hp1in
    have hp2T := hmem_evicted p2 hp2 hnp2
    have hp1S := hmem_kept p1 hp1in
    exact absurd (hTS p2 hp2T p1 hp1S) (not_le.mpr hlt)
  · have hsplitS : storeSizes c.cache = storeSizes T + storeSizes suffix := by
      have h1 : storeSizes (sortByAccess c.cache) = storeSizes c.cache :=
        storeSizes_perm (stableSortBy_perm _ _)
      rw [← h1, hsuf, storeSizes_append]
    have hcs : storeSizes (c.evict_entries required).cache = storeSizes suffix :=
      storeSizes_perm hperm
    rcases henough with hreq | hall
    · left
      rw [hcs, hsplitS]
      linarith
    · right
      have hsufnil : suffix = [] := by
        have hx := hsuf
        rw [← hall] at hx
        have hx2 : T ++ ([] : List (String × CacheEntry)) = T ++ suffix := by
          simpa using hx
        exact (List.append_cancel_left hx2).symm
      rw [hsufnil] at hperm
      exact hperm.eq_nil

/-- C3 witness: on a two-entry store with distinct access times and
unique keys, the amended eviction theorem applies; its freed-size
clause evaluates to "at least the requested 4 bytes were freed". -/
theorem c3_witness :
    storeSizes [("x", ⟨PyVal.int 1, 0, 1, 1, 100, 4⟩), ("y", ⟨PyVal.int 2, 0, 9, 1, 100, 6⟩)] -
      storeSizes ((InMemoryCache.evict_entries
        ⟨[("x", ⟨PyVal.int 1, 0, 1, 1, 100, 4⟩), ("y", ⟨PyVal.int 2, 0, 9, 1, 100, 6⟩)],
          8, 10⟩ 4).cache) ≥ ((4 : Nat) : Int) ∨
    (InMemoryCache.evict_entries
        ⟨[("x", ⟨PyVal.int 1, 0, 1, 1, 100, 4⟩), ("y", ⟨PyVal.int 2, 0, 9, 1, 100, 6⟩)],
          8, 10⟩ 4).cache = [] := by
  exact (c3_lru_eviction_amended
    ⟨[("x", ⟨PyVal.int 1, 0, 1, 1, 100, 4⟩), ("y", ⟨PyVal.int 2, 0, 9, 1, 100, 6⟩)], 8, 10⟩ 4
    (by unfold NodupKeys; decide)).2.2.2

/-- C4: after each mutating memory-cache operation — `get` on the
expiry-removal path, eviction, `clear`, and `set` — the bookkeeping
`current_size` equals the sum of the stored entries' `size` fields;
and immediately after a `set` the store does not exceed `max_size`,
except that a single entry larger than `max_size` is admitted after
everything else has been evicted (the store is then exactly that
entry).  Hypotheses: a reachable state (`MemWf`) and a size estimator
that is positive, as `_calculate_size` is. -/
theorem c4_size_invariant (sz : PyVal → Nat) (c : InMemoryCache) (key : String)
    (v : PyVal) (ttl now required : Nat) (hpos : ∀ u, 0 < sz u) (h : MemWf c) :
    (c.get key now).2.current_size = storeSizes (c.get key now).2.cache ∧
    (c.evict_entries required).current_size = storeSizes (c.evict_entries required).cache ∧
    c.clear.current_size = storeSizes c.clear.cache ∧
    (InMemoryCache.set sz c key v ttl now).current_size =
      storeSizes (InMemoryCache.set sz c key v ttl now).cache ∧
    ((InMemoryCache.set sz c key v ttl now).current_size ≤ (c.max_size : Int) ∨
      ((InMemoryCache.set sz c key v ttl now).cache = [(key, mkEntry sz v ttl now)] ∧
        (c.max_size : Int) < ((sz v : Nat) : Int))) :=
  ⟨(memWf_get h).2.1, (memWf_evict h).2.1, memWf_clear.2.1,
    (memWf_set hpos h).1.2.1, (memWf_set hpos h).2⟩

/-- C4 witness: inserting a 30-byte entry into an empty 100-byte cache
satisfies the post-`set` size bound. -/
theorem c4_witness :
    (InMemoryCache.set (fun _ => 30) ⟨[], 100, 0⟩ "k" (PyVal.int 1) 60 5).current_size ≤
      ((100 : Nat) : Int) ∨
    ((InMemoryCache.set (fun _ => 30) ⟨[], 100, 0⟩ "k" (PyVal.int 1) 60 5).cache =
      [("k", mkEntry (fun _ => 30) (PyVal.int 1) 60 5)] ∧
      ((100 : Nat) : Int) < ((30 : Nat) : Int)) := by
  exact (c4_size_invariant (fun _ => 30) ⟨[], 100, 0⟩ "k" (PyVal.int 1) 60 5 3
    (fun u => by show (0 : Nat) < 30; decide)
    ⟨by unfold NodupKeys; decide, rfl, Or.inl (by decide)⟩).2.2.2.2

/-- C9: `cleanup_expired` deletes both the payload file and the
metadata file for every key whose readable metadata record has passed
its expiry time; on a corrupted (unreadable) metadata record it does
not abort the sweep — the record is deleted (the `.meta` file is
unlinked by the exception handler) and the remaining records are still
processed, so every non-expired readable record and its payload
survive untouched.  (The corrupt record's payload file is outside the
claim; the handler unlinks only `meta_path`.) -/
theorem c9_cleanup_tolerates_corruption (d : DiskCache) (now : Nat)
    (hn : NodupKeys d.metaFiles) :
    (∀ key m, alookup key d.metaFiles = some (MetaFile.good m) → now > m.expires_at →
      alookup key (d.cleanup_expired now).metaFiles = Option.none ∧
      alookup key (d.cleanup_expired now).cacheFiles = Option.none) ∧
    (∀ key, alookup key d.metaFiles = some MetaFile.corrupt →
      alookup key (d.cleanup_expired now).metaFiles = Option.none) ∧
    (∀ key m, alookup key d.metaFiles = some (MetaFile.good m) → ¬ now > m.expires_at →
      alookup key (d.cleanup_expired now).metaFiles = some (MetaFile.good m) ∧
      alookup key (d.cleanup_expired now).cacheFiles = alookup key d.cacheFiles) := by
  rw [DiskCache.cleanup_expired, cleanupGo_spec]
  refine ⟨?_, ?_, ?_⟩
  · intro key m hm hex
    have hmem := mem_of_alookup hm
    constructor
    · apply alookup_filter_in
      exact List.mem_filterMap.mpr ⟨(key, MetaFile.good m), hmem, by simp [hex]⟩
    · apply alookup_filter_in
      exact List.mem_filterMap.mpr ⟨(key, MetaFile.good m), hmem, by simp [hex]⟩
  · intro key hm
    have hmem := mem_of_alookup hm
    apply alookup_filter_in
    exact List.mem_filterMap.mpr ⟨(key, MetaFile.corrupt), hmem, by simp⟩
  · intro key m hm hex
    have hmem := mem_of_alookup hm
    have hnotin_meta : key ∉ metaRemovedKeys now d.metaFiles := by
      intro hc
      obtain ⟨p, hp, hsome⟩ := List.mem_filterMap.mp hc
      cases hp2 : p.2 with
      | corrupt =>
        rw [hp2] at hsome
        simp only [Option.some.injEq] at hsome
        have hpkey : (key, p.2) ∈ d.metaFiles := by
          rw [← hsome]
          exact hp
        have := nodupKeys_entry_eq hn hpkey hmem
        rw [hp2] at this
        cases this
      | good m2 =>
        rw [hp2] at hsome
        by_cases hex2 : now > m2.expires_at
        · simp only [hex2, if_pos, Option.some.injEq] at hsome
          have hpkey : (key, p.2) ∈ d.metaFiles := by
            rw [← hsome]
            exact hp
          have heq := nodupKeys_entry_eq hn hpkey hmem
          rw [hp2] at heq
          have hm2 : m2 = m := by
            cases heq
            rfl
          rw [hm2] at hex2
          exact hex hex2
        · simp [hex2] at hsome
    have hnotin_payload : key ∉ payloadRemovedKeys now d.metaFiles := by
      intro hc
      obtain ⟨p, hp, hsome⟩ := List.mem_filterMap.mp hc
      cases hp2 : p.2 with
      | corrupt =>
        rw [hp2] at hsome
        simp at hsome
      | good m2 =>
        rw [hp2] at hsome
        by_cases hex2 : now > m2.expires_at
        · simp only [hex2, if_pos, Option.some.injEq] at hsome
          have hpkey : (key, p.2) ∈ d.metaFiles := by
            rw [← hsome]
            exact hp
          have heq := nodupKeys_entry_eq hn hpkey hmem
          rw [hp2] at heq
          have hm2 : m2 = m := by
            cases heq
            rfl
          rw [hm2] at hex2
          exact hex hex2
        · simp [hex2] at hsome
    constructor
    · rw [alookup_filter_notin hnotin_meta]
      exact hm
    · rw [alookup_filter_notin hnotin_payload]

/-- C9 witness: on a directory with a corrupt record for "bad", an
expired record for "old" and a live record for "ok", the sweep removes
the corrupt metadata, removes both files of "old", and leaves "ok" and
its payload in place. -/
theorem c9_witness :
    (alookup "bad" ((DiskCache.cleanup_expired
        ⟨[("old", PyVal.int 1), ("ok", PyVal.int 2)],
         [("bad", MetaFile.corrupt), ("old", MetaFile.good ⟨0, 0, 1, 5, 5⟩),
          ("ok", MetaFile.good ⟨0, 0, 1, 100, 100⟩)]⟩ 10)).metaFiles = Option.none) ∧
    (alookup "old" ((DiskCache.cleanup_expired
        ⟨[("old", PyVal.int 1), ("ok", PyVal.int 2)],
         [("bad", MetaFile.corrupt), ("old", MetaFile.good ⟨0, 0, 1, 5, 5⟩),
          ("ok", MetaFile.good ⟨0, 0, 1, 100, 100⟩)]⟩ 10)).cacheFiles = Option.none) ∧
    (alookup "ok" ((DiskCache.cleanup_expired
        ⟨[("old", PyVal.int 1), ("ok", PyVal.int 2)],
         [("bad", MetaFile.corrupt), ("old", MetaFile.good ⟨0, 0, 1, 5, 5⟩),
          ("ok", MetaFile.good ⟨0, 0, 1, 100, 100⟩)]⟩ 10)).metaFiles =
      some (MetaFile.good ⟨0, 0, 1, 100, 100⟩)) := by
  have h := c9_cleanup_tolerates_corruption
    ⟨[("old", PyVal.int 1), ("ok", PyVal.int 2)],
     [("bad", MetaFile.corrupt), ("old", MetaFile.good ⟨0, 0, 1, 5, 5⟩),
      ("ok", MetaFile.good ⟨0, 0, 1, 100, 100⟩)]⟩ 10
    (by unfold NodupKeys; decide)
  refine ⟨h.2.1 "bad" rfl, (h.1 "old" ⟨0, 0, 1, 5, 5⟩ rfl (by decide)).2, ?_⟩
  exact (h.2.2 "ok" ⟨0, 0, 1, 100, 100⟩ rfl (by decide)).1

/-- C5: when the submitted code raises, `execute_code` still returns a
result (the Lean model is a total function, mirroring the catch-all
`except` in `_execute_with_capture`): the exception message lands in
the result's `error` field with the traceback appended to the captured
stderr, `success` is false, the session namespace keeps exactly the
state the code produced before failing (no rollback), and the
aggregate stats are still bumped for the failed run. -/
theorem c5_execute_error_as_data (em : ExecutionManager) (code : List Stmt)
    (ts : Nat → String) (el : Nat) (ns1 : List (String × PyVal)) (out : String)
    (figs : Nat) (msg : String)
    (h : runStmts code em.globals_dict "" em.figures = (ns1, out, figs, some msg)) :
    (execute_code em code ts el).1.success = false ∧
    (execute_code em code ts el).1.error = some msg ∧
    (execute_code em code ts el).1.stderr =
      "\nError: " ++ msg ++ "\n" ++ tracebackText msg ∧
    (execute_code em code ts el).1.stdout = out ∧
    (execute_code em code ts el).1.plots = [] ∧
    (execute_code em code ts el).2.globals_dict = ns1 ∧
    (∀ n v, alookup n ns1 = some v →
      alookup n (execute_code em code ts el).2.globals_dict = some v) ∧
    (execute_code em code ts el).2.stats.total_executions =
      em.stats.total_executions + 1 ∧
    (execute_code em code ts el).2.stats.total_execution_time =
      em.stats.total_execution_time + el := by
  have hx : execute_code em code ts el =
      ({ success := false, stdout := out,
         stderr := "\nError: " ++ msg ++ "\n" ++ tracebackText msg,
         error := some msg, plots := [], execution_time := el },
       { globals_dict := ns1, figures := figs,
         stats := { total_executions := em.stats.total_executions + 1,
                    total_execution_time := em.stats.total_execution_time + el } }) := by
    simp only [execute_code, h]
  rw [hx]
  refine ⟨rfl, rfl, rfl, rfl, rfl, rfl, ?_, rfl, rfl⟩
  intro n v hv
  exact hv

/-- C5 witness: running `x = 5; raise Exception("boom"); y = 1` on a
fresh session reports the error as data, keeps `x = 5` in the
namespace, and counts the failed run in the stats. -/
theorem c5_witness :
    ((execute_code ⟨[], 0, ⟨0, 0⟩⟩
        [Stmt.assign "x" (PyVal.int 5), Stmt.raiseExc "boom", Stmt.assign "y" (PyVal.int 1)]
        (fun _ => "T") 3).1.success = false) ∧
    ((execute_code ⟨[], 0, ⟨0, 0⟩⟩
        [Stmt.assign "x" (PyVal.int 5), Stmt.raiseExc "boom", Stmt.assign "y" (PyVal.int 1)]
        (fun _ => "T") 3).1.error = some "boom") ∧
    (alookup "x" (execute_code ⟨[], 0, ⟨0, 0⟩⟩
        [Stmt.assign "x" (PyVal.int 5), Stmt.raiseExc "boom", Stmt.assign "y" (PyVal.int 1)]
        (fun _ => "T") 3).2.globals_dict = some (PyVal.int 5)) ∧
    ((execute_code ⟨[], 0, ⟨0, 0⟩⟩
        [Stmt.assign "x" (PyVal.int 5), Stmt.raiseExc "boom", Stmt.assign "y" (PyVal.int 1)]
        (fun _ => "T") 3).2.stats.total_executions = 1) := by
  have h := c5_execute_error_as_data ⟨[], 0, ⟨0, 0⟩⟩
    [Stmt.assign "x" (PyVal.int 5), Stmt.raiseExc "boom", Stmt.assign "y" (PyVal.int 1)]
    (fun _ => "T") 3 [("x", PyVal.int 5)] "" 0 "boom" rfl
  exact ⟨h.1, h.2.1, h.2.2.2.2.2.2.1 "x" (PyVal.int 5) rfl, h.2.2.2.2.2.2.2.1⟩

/-- C6: variables defined by one `execute_code` call are visible to
every later call in the same session — executing `x = v` and then
`print(x)` yields `str(v)` plus a newline on the second call's stdout
— and in general the namespace after any call is exactly the previous
namespace updated by the submitted code's own effects (it is never
reset between submissions; no reset operation exists in the source). -/
theorem c6_namespace_persistence :
    (∀ (em0 : ExecutionManager) (x : String) (v : PyVal) (t1 t2 : Nat → String)
      (e1 e2 : Nat),
      (execute_code (execute_code em0 [Stmt.assign x v] t1 e1).2
        [Stmt.printVar x] t2 e2).1.stdout = pyStr v ++ "\n" ∧
      (execute_code (execute_code em0 [Stmt.assign x v] t1 e1).2
        [Stmt.printVar x] t2 e2).1.success = true) ∧
    (∀ (em : ExecutionManager) (code : List Stmt) (t : Nat → String) (el : Nat),
      (execute_code em code t el).2.globals_dict =
        (runStmts code em.globals_dict "" em.figures).1) := by
  have hgen : ∀ (em : ExecutionManager) (code : List Stmt) (t : Nat → String) (el : Nat),
      (execute_code em code t el).2.globals_dict =
        (runStmts code em.globals_dict "" em.figures).1 := by
    intro em code t el
    rcases hr : runStmts code em.globals_dict "" em.figures with ⟨ns, out, figs, err⟩
    cases err <;> simp [execute_code, hr]
  refine ⟨?_, hgen⟩
  intro em0 x v t1 t2 e1 e2
  have hg : (execute_code em0 [Stmt.assign x v] t1 e1).2.globals_dict =
      dictSet x v em0.globals_dict := by
    rw [hgen]
    rfl
  generalize hG : (execute_code em0 [Stmt.assign x v] t1 e1).2 = G at hg
  have ha : alookup x G.globals_dict = some v := by
    rw [hg]
    exact alookup_dictSet_self
  have hrun2 : runStmts [Stmt.printVar x] G.globals_dict "" G.figures =
      (G.globals_dict, "" ++ (pyStr v ++ "\n"), G.figures, Option.none) := by
    simp [runStmts, ha]
  constructor
  · simp only [execute_code, hrun2]
    simp
  · simp only [execute_code, hrun2]

/-- C7 counterexample: the claim "after every execution, whether the
submitted code succeeded or raised, execute scans for newly created
figures, writes each to a file, returns their paths and clears the
figure registry" fails as stated.  `_save_plots` is called inside the
`try`, after `exec`, so it is skipped on an exception: a failing run
that created one figure returns an empty plot list and leaves the
figure pending in the registry for the next run. -/
theorem c7_counterexample :
    ((execute_code ⟨[], 0, ⟨0, 0⟩⟩ [Stmt.mkFigure, Stmt.raiseExc "boom"]
        (fun _ => "T") 1).1.plots = []) ∧
    ((execute_code ⟨[], 0, ⟨0, 0⟩⟩ [Stmt.mkFigure, Stmt.raiseExc "boom"]
        (fun _ => "T") 1).2.figures = 1) ∧
    ((execute_code ⟨[], 0, ⟨0, 0⟩⟩ [Stmt.mkFigure, Stmt.raiseExc "boom"]
        (fun _ => "T") 1).1.error = some "boom") := by
  exact ⟨rfl, rfl, rfl⟩

/-- C7 (amended): only after a successful execution does
`execute_code` harvest the pending figures — writing each to a
timestamped `tmp/plots/plot_<ts>_<i>.png`, returning the paths, and
clearing the figure registry to zero; when the submitted code raises,
the plot list is empty and the registry keeps the pending figures
(including any created before the failure point). -/
theorem c7_plots_amended (em : ExecutionManager) (code : List Stmt)
    (tsf : Nat → String) (el : Nat) :
    ((runStmts code em.globals_dict "" em.figures).2.2.2 = Option.none →
      (execute_code em code tsf el).1.plots =
        (List.range (runStmts code em.globals_dict "" em.figures).2.2.1).map
          (fun i => "tmp/plots/plot_" ++ tsf i ++ "_" ++ toString i ++ ".png") ∧
      (execute_code em code tsf el).2.figures = 0) ∧
    (∀ msg, (runStmts code em.globals_dict "" em.figures).2.2.2 = some msg →
      (execute_code em code tsf el).1.plots = [] ∧
      (execute_code em code tsf el).2.figures =
        (runStmts code em.globals_dict "" em.figures).2.2.1) := by
  rcases hr : runStmts code em.globals_dict "" em.figures with ⟨ns, out, figs, err⟩
  constructor
  · intro herr
    have herr' : err = Option.none := by simpa using herr
    subst herr'
    by_cases hf : figs = 0
    · constructor <;> simp [execute_code, hr, save_plots, hf]
    · constructor <;> simp [execute_code, hr, save_plots, hf]
  · intro msg herr
    have herr' : err = some msg := by simpa using herr
    subst herr'
    constructor <;> simp [execute_code, hr]

/-- C7 witness: a successful run with two pending figures saves both
to timestamped files under `tmp/plots` and clears the registry. -/
theorem c7_witness :
    ((execute_code ⟨[], 0, ⟨0, 0⟩⟩ [Stmt.mkFigure, Stmt.mkFigure]
        (fun n => toString n) 1).1.plots =
      ["tmp/plots/plot_0_0.png", "tmp/plots/plot_1_1.png"]) ∧
    ((execute_code ⟨[], 0, ⟨0, 0⟩⟩ [Stmt.mkFigure, Stmt.mkFigure]
        (fun n => toString n) 1).2.figures = 0) := by
  have h := (c7_plots_amended ⟨[], 0, ⟨0, 0⟩⟩ [Stmt.mkFigure, Stmt.mkFigure]
    (fun n => toString n) 1).1 rfl
  refine ⟨?_, h.2⟩
  rw [h.1]
  rfl

theorem str_append_right_cancel {a b t : String} (h : a ++ t = b ++ t) : a = b := by
  apply String.ext
  have hd := congrArg String.data h
  rw [String.data_append, String.data_append] at hd
  exact List.append_cancel_right hd

theorem str_append_left_cancel {p a b : String} (h : p ++ a = p ++ b) : a = b := by
  apply String.ext
  have hd := congrArg String.data h
  rw [String.data_append, String.data_append] at hd
  exact List.append_cancel_left hd

/-- C8 counterexample: "two calls differing in any argument value
produce different keys" fails as stated.  `json.dumps(..., default=str)`
serializes a non-JSON-serializable object as the JSON string of its
`str()`, colliding with the actual string of the same text, and
serializes tuples and lists identically — in both cases two calls with
different argument values get the same cache key. -/
theorem c8_counterexample :
    (generate_key "f" [PyVal.obj "2020-01-01 00:00:00"] [] =
      generate_key "f" [PyVal.str "2020-01-01 00:00:00"] []) ∧
    (PyVal.obj "2020-01-01 00:00:00" = PyVal.str "2020-01-01 00:00:00" → False) ∧
    (generate_key "g" [] [("x", PyVal.tuple [PyVal.int 1, PyVal.int 2])] =
      generate_key "g" [] [("x", PyVal.list [PyVal.int 1, PyVal.int 2])]) := by
  refine ⟨rfl, ?_, rfl⟩
  intro h
  cases h

/-- C8 (amended): the cache key is a deterministic function of
(function name, positional arguments, keyword arguments) — the
canonical `json.dumps(..., sort_keys=True, default=str)` string, to
which the source applies the fixed MD5 digest, so it is stable across
process restarts.  Keyword arguments given in different orders produce
the same key (the dict has unique keys and serialization sorts them);
two calls whose arguments serialize to different canonical strings
produce different keys (distinct digests up to MD5 collision); but
distinct argument values that serialize identically under
`default=str` (object vs. its `str()`, tuple vs. list) collide. -/
theorem c8_cache_key_amended :
    (∀ (f : String) (args : List PyVal) (kw1 kw2 : List (String × PyVal)),
      kw1.Perm kw2 → (kw1.map Prod.fst).Nodup →
      generate_key f args kw1 = generate_key f args kw2) ∧
    (∀ (f : String) (args1 args2 : List PyVal) (kw : List (String × PyVal)),
      dumps (PyVal.tuple args1) ≠ dumps (PyVal.tuple args2) →
      generate_key f args1 kw ≠ generate_key f args2 kw) := by
  constructor
  · intro f args kw1 kw2 hp hn
    have hsort : sortKwargs kw1 = sortKwargs kw2 :=
      stableSortBy_eq_of_perm Prod.fst hp hn
    rw [generate_key, generate_key, dumpsKwargs, dumpsKwargs, hsort]
  · intro f args1 args2 kw hne h
    apply hne
    rw [generate_key, generate_key] at h
    have h1 := str_append_right_cancel h
    have h2 := str_append_right_cancel h1
    have h3 := str_append_right_cancel h2
    have h4 := str_append_right_cancel h3
    have h5 := str_append_right_cancel h4
    exact str_append_left_cancel h5

/-- C8 witness: swapping the order of two keyword arguments leaves the
key unchanged, and calls differing in an `int` argument value get
different keys. -/
theorem c8_witness :
    (generate_key "f" [] [("a", PyVal.int 1), ("b", PyVal.int 2)] =
      generate_key "f" [] [("b", PyVal.int 2), ("a", PyVal.int 1)]) ∧
    (generate_key "f" [PyVal.int 1] [] ≠ generate_key "f" [PyVal.int 2] []) := by
  constructor
  · exact c8_cache_key_amended.1 "f" [] [("a", PyVal.int 1), ("b", PyVal.int 2)]
      [("b", PyVal.int 2), ("a", PyVal.int 1)]
      (List.Perm.swap ("b", PyVal.int 2) ("a", PyVal.int 1) []) (by decide)
  · exact c8_cache_key_amended.2 "f" [PyVal.int 1] [PyVal.int 2] [] (by decide)

end RnAgent
